import Mathlib

/-! BTLE codec primitives of `host/btle-tools/src/btle_rx.c`

A shallow embedding of the encode-side primitives of the BTLE tool (channel
frequency map, hex/bit conversion, CRC24 in its table-driven and bit-serial
forms, data whitening, advertising header, packet assembly) together with
theorems about them.

Conventions of the embedding.

* A C `int` is an `Int`; a `uint64_t`, `uint_fast32_t` or `size_t` is a `Nat`
  reduced modulo `2^64` where the C code converts or can wrap.
* A C string is the list of the character codes that stand before its
  terminating NUL.  The strip test of `convert_hex_to_bit` is the same for a
  signed and an unsigned `char`, so codes are taken in `0 .. 255`.
* A `char` that holds a bit is a `Nat`; bit arrays are lists, element `i` of the
  list being `bit[i]`.
* A function that writes through an output pointer returns what it wrote.
* A read or write outside the object a pointer belongs to, and a read of an
  uninitialised local, is undefined behaviour in C: the embedding returns
  `none` there.
* `printf` diagnostics are not part of the embedding.
-/

namespace BTLE

/-! ## Definitions -/

/-- The C expression `0x01&(n>>k)` for an `int` n: bit `k` of the two's
complement representation (`>>` on a negative `int` is the arithmetic shift). -/
def bitAt (n : Int) (k : Nat) : Nat := ((n >>> k) % 2).toNat

/-- Conversion of an `int` to an unsigned 64-bit integer (`uint64_t`, `size_t`,
`uint_fast32_t` on LP64). -/
def to_u64 (n : Int) : Nat := (n % 2 ^ 64).toNat

/-- `get_freq_by_channel_number` (lines 255-275): carrier frequency in Hz of a
BTLE channel, `0xffffffffffffffff` for a number that is no channel. -/
def get_freq_by_channel_number (channel_number : Int) : Nat :=
  if channel_number = 37 then 2402000000
  else if channel_number = 38 then 2426000000
  else if channel_number = 39 then 2480000000
  else if channel_number ≥ 0 ∧ channel_number ≤ 10 then
    (2404000000 + to_u64 channel_number * 2000000 % 2 ^ 64) % 2 ^ 64
  else if channel_number ≥ 11 ∧ channel_number ≤ 36 then
    (2428000000 + to_u64 (channel_number - 11) * 2000000 % 2 ^ 64) % 2 ^ 64
  else 0xffffffffffffffff

/-- The enumeration `PKT_TYPE` (lines 522-551), in declaration order. -/
inductive PKT_TYPE where
  | INVALID_TYPE
  | RAW
  | DISCOVERY
  | IBEACON
  | ADV_IND
  | ADV_DIRECT_IND
  | ADV_NONCONN_IND
  | ADV_SCAN_IND
  | SCAN_REQ
  | SCAN_RSP
  | CONNECT_REQ
  | LL_DATA
  | LL_CONNECTION_UPDATE_REQ
  | LL_CHANNEL_MAP_REQ
  | LL_TERMINATE_IND
  | LL_ENC_REQ
  | LL_ENC_RSP
  | LL_START_ENC_REQ
  | LL_START_ENC_RSP
  | LL_UNKNOWN_RSP
  | LL_FEATURE_REQ
  | LL_FEATURE_RSP
  | LL_PAUSE_ENC_REQ
  | LL_PAUSE_ENC_RSP
  | LL_VERSION_IND
  | LL_REJECT_IND
  | NUM_PKT_TYPE
  deriving DecidableEq, Repr

open PKT_TYPE

/-- `int_to_bit` (lines 672-681): the 8 low bits of n, least significant first. -/
def int_to_bit (n : Int) : List Nat :=
  [bitAt n 0, bitAt n 1, bitAt n 2, bitAt n 3, bitAt n 4, bitAt n 5, bitAt n 6, bitAt n 7]

/-- The value an `int` leaves in a `char` that is then read as a bit: the low
8 bits (the callers pass 0 or 1, which the store keeps as it is). -/
def to_char (n : Int) : Nat := (n % 256).toNat

/-- `fill_adv_pdu_header` (lines 963-998): the 16 chars written to `bit_out`. -/
def fill_adv_pdu_header (pkt_type : PKT_TYPE) (txadd rxadd payload_len : Int) : List Nat :=
  let t : List Nat :=
    if pkt_type = ADV_IND ∨ pkt_type = IBEACON then [0, 0, 0, 0]
    else if pkt_type = ADV_DIRECT_IND then [1, 0, 0, 0]
    else if pkt_type = ADV_NONCONN_IND ∨ pkt_type = DISCOVERY then [0, 1, 0, 0]
    else if pkt_type = SCAN_REQ then [1, 1, 0, 0]
    else if pkt_type = SCAN_RSP then [0, 0, 1, 0]
    else if pkt_type = CONNECT_REQ then [1, 0, 1, 0]
    else if pkt_type = ADV_SCAN_IND then [0, 1, 1, 0]
    else [1, 1, 1, 1]
  t ++ [0, 0, to_char txadd, to_char rxadd,
        bitAt payload_len 0, bitAt payload_len 1, bitAt payload_len 2,
        bitAt payload_len 3, bitAt payload_len 4, bitAt payload_len 5, 0, 0]

/-- The initial whitening register of `scramble` (lines 817-823). -/
def scramble_init (channel_number : Int) : List Nat :=
  [1, bitAt channel_number 5, bitAt channel_number 4, bitAt channel_number 3,
   bitAt channel_number 2, bitAt channel_number 1, bitAt channel_number 0]

/-- One update of the whitening register (lines 828-839). -/
def scramble_step (bit_store : List Nat) : List Nat :=
  [bit_store.getD 6 0, bit_store.getD 0 0, bit_store.getD 1 0, bit_store.getD 2 0,
   (bit_store.getD 3 0 + bit_store.getD 6 0) % 2, bit_store.getD 4 0, bit_store.getD 5 0]

/-- The loop of `scramble` (lines 825-840) from register `bit_store` over the
input chars, giving the chars written to `bit_out`. -/
def scramble_loop : List Nat → List Nat → List Nat
  | _, [] => []
  | bit_store, b :: rest =>
    (bit_store.getD 6 0 + b) % 2 :: scramble_loop (scramble_step bit_store) rest

/-- `scramble` (lines 813-841): `bit_in` holds the `num_bit` chars the loop
reads (none when `num_bit ≤ 0`); the result is what is written to `bit_out`. -/
def scramble (bit_in : List Nat) (channel_number : Int) : List Nat :=
  scramble_loop (scramble_init channel_number) bit_in

/-- The C library `isspace` in the "C" locale. -/
def isspace (c : Nat) : Bool := c = 32 ∨ (9 ≤ c ∧ c ≤ 13)

/-- Value of a character as a base-16 digit, as `strtol` reads it. -/
def hex_digit_val (c : Nat) : Option Nat :=
  if 48 ≤ c ∧ c ≤ 57 then some (c - 48)
  else if 97 ≤ c ∧ c ≤ 102 then some (c - 87)
  else if 65 ≤ c ∧ c ≤ 70 then some (c - 55)
  else none

/-- The digit loop of `strtol`: the longest run of leading base-16 digits. -/
def strtol16_digits : List Nat → Nat → Nat
  | [], acc => acc
  | c :: cs, acc =>
    match hex_digit_val c with
    | some d => strtol16_digits cs (16 * acc + d)
    | none => acc

/-- The C library call `strtol(tmp_hex, NULL, 16)` of `octet_hex_to_bit`, where
`tmp_hex` is the two characters c0, c1 followed by NUL: leading white space,
an optional sign, an optional `0x` prefix that a digit follows, then the
digits.  Two digits cannot overflow a `long`. -/
def strtol16 (c0 c1 : Nat) : Int :=
  let s := [c0, c1].takeWhile (fun c => c ≠ 0)
  let s1 := s.dropWhile isspace
  let neg : Bool := match s1 with
    | 45 :: _ => true
    | _ => false
  let s2 := match s1 with
    | 45 :: t => t
    | 43 :: t => t
    | t => t
  let s3 := match s2 with
    | 48 :: x :: d :: t =>
      if (x = 120 ∨ x = 88) ∧ (hex_digit_val d).isSome then d :: t else s2
    | _ => s2
  let v : Int := strtol16_digits s3 0
  if neg then -v else v

/-- `octet_hex_to_bit` (lines 653-670): the 8 chars written to `bit` for the two
characters `hex[0]`, `hex[1]`. -/
def octet_hex_to_bit (hex0 hex1 : Nat) : List Nat :=
  let n := strtol16 hex0 hex1
  [bitAt n 0, bitAt n 1, bitAt n 2, bitAt n 3, bitAt n 4, bitAt n 5, bitAt n 6, bitAt n 7]

/-- The strip loop of `convert_hex_to_bit` (lines 685-687), entered with
`num_hex` characters left: `while(hex[num_hex-1]<=32 || hex[num_hex-1]>=127)
num_hex--`.  With no character left the loop reads `hex[-1]`, outside the
string: `none`. -/
def strip_loop (hex : List Nat) : Nat → Option Nat
  | 0 => none
  | n + 1 =>
    if hex.getD n 0 ≤ 32 ∨ hex.getD n 0 ≥ 127 then strip_loop hex n else some (n + 1)

/-- The conversion loop of `convert_hex_to_bit` (lines 698-701) over the
characters kept, two at a time. -/
def convert_octets : List Nat → List Nat
  | c0 :: c1 :: rest => octet_hex_to_bit c0 c1 ++ convert_octets rest
  | _ => []

/-- `convert_hex_to_bit` (lines 683-704): the returned `int` and the chars
written to `bit`; `none` when the strip loop leaves the string. -/
def convert_hex_to_bit (hex : List Nat) : Option (Int × List Nat) :=
  match strip_loop hex hex.length with
  | none => none
  | some num_hex =>
    if num_hex % 2 ≠ 0 then some (-1, [])
    else some (((num_hex * 4 : Nat) : Int), convert_octets (hex.take num_hex))

/-- The conversion `%02x` of `printf` for a non-negative argument: lower-case
base-16 digits, at least two of them. -/
def printf_02x (a : Nat) : List Nat :=
  let ds := (Nat.toDigits 16 a).map Char.toNat
  if ds.length < 2 then 48 :: ds else ds

/-- The bytes `disp_bit_in_hex` packs (line 1019), one for every 8 chars of
`bit`; `bit` holds `num_bit` chars and `num_bit` is a multiple of 8 wherever
the function is called. -/
def pack_bits : List Nat → List Nat
  | b0 :: b1 :: b2 :: b3 :: b4 :: b5 :: b6 :: b7 :: rest =>
    (b0 + b1 * 2 + b2 * 4 + b3 * 8 + b4 * 16 + b5 * 32 + b6 * 64 + b7 * 128) :: pack_bits rest
  | _ => []

/-- `disp_bit_in_hex` (lines 1015-1024): the characters printed, the closing
newline included. -/
def disp_bit_in_hex (bit : List Nat) : List Nat :=
  ((pack_bits bit).map printf_02x).flatten ++ [10]

/-- The table `crc_table` (lines 709-742). -/
def crc_table : List Nat := [
    0x000000, 0x01b4c0, 0x036980, 0x02dd40, 0x06d300, 0x0767c0, 0x05ba80, 0x040e40,
    0x0da600, 0x0c12c0, 0x0ecf80, 0x0f7b40, 0x0b7500, 0x0ac1c0, 0x081c80, 0x09a840,
    0x1b4c00, 0x1af8c0, 0x182580, 0x199140, 0x1d9f00, 0x1c2bc0, 0x1ef680, 0x1f4240,
    0x16ea00, 0x175ec0, 0x158380, 0x143740, 0x103900, 0x118dc0, 0x135080, 0x12e440,
    0x369800, 0x372cc0, 0x35f180, 0x344540, 0x304b00, 0x31ffc0, 0x332280, 0x329640,
    0x3b3e00, 0x3a8ac0, 0x385780, 0x39e340, 0x3ded00, 0x3c59c0, 0x3e8480, 0x3f3040,
    0x2dd400, 0x2c60c0, 0x2ebd80, 0x2f0940, 0x2b0700, 0x2ab3c0, 0x286e80, 0x29da40,
    0x207200, 0x21c6c0, 0x231b80, 0x22af40, 0x26a100, 0x2715c0, 0x25c880, 0x247c40,
    0x6d3000, 0x6c84c0, 0x6e5980, 0x6fed40, 0x6be300, 0x6a57c0, 0x688a80, 0x693e40,
    0x609600, 0x6122c0, 0x63ff80, 0x624b40, 0x664500, 0x67f1c0, 0x652c80, 0x649840,
    0x767c00, 0x77c8c0, 0x751580, 0x74a140, 0x70af00, 0x711bc0, 0x73c680, 0x727240,
    0x7bda00, 0x7a6ec0, 0x78b380, 0x790740, 0x7d0900, 0x7cbdc0, 0x7e6080, 0x7fd440,
    0x5ba800, 0x5a1cc0, 0x58c180, 0x597540, 0x5d7b00, 0x5ccfc0, 0x5e1280, 0x5fa640,
    0x560e00, 0x57bac0, 0x556780, 0x54d340, 0x50dd00, 0x5169c0, 0x53b480, 0x520040,
    0x40e400, 0x4150c0, 0x438d80, 0x423940, 0x463700, 0x4783c0, 0x455e80, 0x44ea40,
    0x4d4200, 0x4cf6c0, 0x4e2b80, 0x4f9f40, 0x4b9100, 0x4a25c0, 0x48f880, 0x494c40,
    0xda6000, 0xdbd4c0, 0xd90980, 0xd8bd40, 0xdcb300, 0xdd07c0, 0xdfda80, 0xde6e40,
    0xd7c600, 0xd672c0, 0xd4af80, 0xd51b40, 0xd11500, 0xd0a1c0, 0xd27c80, 0xd3c840,
    0xc12c00, 0xc098c0, 0xc24580, 0xc3f140, 0xc7ff00, 0xc64bc0, 0xc49680, 0xc52240,
    0xcc8a00, 0xcd3ec0, 0xcfe380, 0xce5740, 0xca5900, 0xcbedc0, 0xc93080, 0xc88440,
    0xecf800, 0xed4cc0, 0xef9180, 0xee2540, 0xea2b00, 0xeb9fc0, 0xe94280, 0xe8f640,
    0xe15e00, 0xe0eac0, 0xe23780, 0xe38340, 0xe78d00, 0xe639c0, 0xe4e480, 0xe55040,
    0xf7b400, 0xf600c0, 0xf4dd80, 0xf56940, 0xf16700, 0xf0d3c0, 0xf20e80, 0xf3ba40,
    0xfa1200, 0xfba6c0, 0xf97b80, 0xf8cf40, 0xfcc100, 0xfd75c0, 0xffa880, 0xfe1c40,
    0xb75000, 0xb6e4c0, 0xb43980, 0xb58d40, 0xb18300, 0xb037c0, 0xb2ea80, 0xb35e40,
    0xbaf600, 0xbb42c0, 0xb99f80, 0xb82b40, 0xbc2500, 0xbd91c0, 0xbf4c80, 0xbef840,
    0xac1c00, 0xada8c0, 0xaf7580, 0xaec140, 0xaacf00, 0xab7bc0, 0xa9a680, 0xa81240,
    0xa1ba00, 0xa00ec0, 0xa2d380, 0xa36740, 0xa76900, 0xa6ddc0, 0xa40080, 0xa5b440,
    0x81c800, 0x807cc0, 0x82a180, 0x831540, 0x871b00, 0x86afc0, 0x847280, 0x85c640,
    0x8c6e00, 0x8ddac0, 0x8f0780, 0x8eb340, 0x8abd00, 0x8b09c0, 0x89d480, 0x886040,
    0x9a8400, 0x9b30c0, 0x99ed80, 0x985940, 0x9c5700, 0x9de3c0, 0x9f3e80, 0x9e8a40,
    0x972200, 0x9696c0, 0x944b80, 0x95ff40, 0x91f100, 0x9045c0, 0x929880, 0x932c40]

/-- One pass of the loop body of `crc_update` (lines 758-759) for the byte d. -/
def crc_update_step (crc d : Nat) : Nat :=
  let tbl_idx := (crc ^^^ d) &&& 0xff
  (crc_table.getD tbl_idx 0 ^^^ (crc >>> 8)) &&& 0xffffff

/-- `crc_update` (lines 752-764) over the `data_len` bytes of `data`. -/
def crc_update (crc : Nat) (data : List Nat) : Nat :=
  (data.foldl crc_update_step crc) &&& 0xffffff

/-- `crc24_byte` (lines 766-772).  `byte_in` holds the bytes that can be read
from the pointer on; the `int` `num_byte` becomes the `size_t` `data_len`, so
a negative `num_byte` asks for more bytes than any buffer holds: `none`. -/
def crc24_byte (byte_in : List Nat) (num_byte : Int) (init_hex : Int) : Option Nat :=
  let data_len := to_u64 num_byte
  if data_len ≤ byte_in.length then
    some (crc_update (to_u64 init_hex) (byte_in.take data_len))
  else none

/-- One pass of the loop body of `crc24` (lines 780-797) for the input char b. -/
def crc24_step (bit_store : List Nat) (b : Nat) : List Nat :=
  let new_bit := (bit_store.getD 23 0 + b) % 2
  [new_bit,
   (bit_store.getD 0 0 + new_bit) % 2,
   bit_store.getD 1 0,
   (bit_store.getD 2 0 + new_bit) % 2,
   (bit_store.getD 3 0 + new_bit) % 2,
   bit_store.getD 4 0,
   (bit_store.getD 5 0 + new_bit) % 2,
   bit_store.getD 6 0,
   bit_store.getD 7 0,
   (bit_store.getD 8 0 + new_bit) % 2,
   (bit_store.getD 9 0 + new_bit) % 2] ++ (bit_store.drop 10).take 13

/-- The result loop of `crc24` (lines 800-802): `crc_result[i] = bit_store[23-i]`. -/
def crc24_result (bit_store : List Nat) : List Nat :=
  (List.range 24).map (fun i => bit_store.getD (23 - i) 0)

/-- `crc24` (lines 774-803): `bit_in` holds the `num_bit` chars the loop reads
(none when `num_bit ≤ 0`); the result is the 24 chars written to
`crc_result`.  The register `bit_store` has 24 chars and is filled by
`convert_hex_to_bit(init_hex, bit_store)`, whose return value is not looked
at: when that call does not write exactly 24 chars the register is read
uninitialised or overrun, `none`. -/
def crc24 (bit_in : List Nat) (init_hex : List Nat) : Option (List Nat) :=
  match convert_hex_to_bit init_hex with
  | none => none
  | some (_, bit_store) =>
    if bit_store.length = 24 then some (crc24_result (bit_in.foldl crc24_step bit_store))
    else none

/-- The loop of `scramble_byte` (lines 808-810) from index i on. -/
def scramble_byte_loop (scramble_table_ch37 : Nat → Nat) : Nat → List Nat → List Nat
  | _, [] => []
  | i, b :: rest =>
    (b ^^^ scramble_table_ch37 i) % 256 :: scramble_byte_loop scramble_table_ch37 (i + 1) rest

/-- `scramble_byte` (lines 806-811): `byte_in` holds the `num_byte` bytes the
loop reads; the result is what is written to `byte_out`.  The table
`scramble_table_ch37` is declared in `scramble_table_ch37.h`, which is not
among the sources: it is a parameter, entry i being `scramble_table_ch37 i`.
The argument `channel_number` is not used by the C function. -/
def scramble_byte (scramble_table_ch37 : Nat → Nat) (byte_in : List Nat)
    (channel_number : Int) : List Nat :=
  let _unused := channel_number
  scramble_byte_loop scramble_table_ch37 0 byte_in

/-- `MAX_NUM_PHY_BYTE` (line 108). -/
def MAX_NUM_PHY_BYTE : Nat := 47

/-- `MAX_NUM_INFO_BYTE` (line 107). -/
def MAX_NUM_INFO_BYTE : Nat := 43

/-- The structure `PKT_INFO` (lines 616-640).  An array field is the function
from index to element; `info_bit` and `phy_bit` have `MAX_NUM_PHY_BYTE*8`
elements, `info_byte` and `phy_byte` have `MAX_NUM_PHY_BYTE`. -/
structure PKT_INFO where
  channel_number : Int
  pkt_type : PKT_TYPE
  cmd_str : List Nat
  num_info_bit : Int
  info_bit : Nat → Nat
  num_info_byte : Int
  info_byte : Nat → Nat
  num_phy_bit : Int
  phy_bit : Nat → Nat
  num_phy_byte : Int
  phy_byte : Nat → Nat
  num_phy_sample : Int
  phy_sample : Nat → Int
  phy_sample1 : Nat → Int
  space : Int

/-- The n elements of the array a from index off on. -/
def readAt (a : Nat → Nat) (off n : Nat) : List Nat :=
  (List.range n).map (fun k => a (off + k))

/-- The array a after the elements of xs are stored from index off on. -/
def writeAt (a : Nat → Nat) (off : Nat) (xs : List Nat) : Nat → Nat :=
  fun i => if off ≤ i ∧ i < off + xs.length then xs.getD (i - off) 0 else a i

/-- `crc24_and_scramble_to_gen_phy_bit` (lines 1057-1080).  The result is
`none` when a store or a read leaves its array: the 24 CRC chars go to
`info_bit[num_info_bit ..]`, the 3 CRC bytes to `info_byte[num_info_byte ..]`,
and `crc24_byte` reads `num_info_byte-5` bytes of the 42 that follow
`info_byte+5`; every other access stays inside once these do. -/
def crc24_and_scramble_to_gen_phy_bit (scramble_table_ch37 : Nat → Nat)
    (crc_init_hex : List Nat) (pkt : PKT_INFO) : Option PKT_INFO :=
  if ¬ (0 ≤ pkt.num_info_bit ∧ pkt.num_info_bit + 24 ≤ MAX_NUM_PHY_BYTE * 8) then none
  else if ¬ (0 ≤ pkt.num_info_byte ∧ pkt.num_info_byte + 3 ≤ MAX_NUM_PHY_BYTE) then none
  else
    match crc24 (readAt pkt.info_bit (5 * 8) (pkt.num_info_bit - 5 * 8).toNat) crc_init_hex with
    | none => none
    | some crc_result =>
      let info_bit := writeAt pkt.info_bit pkt.num_info_bit.toNat crc_result
      match crc24_byte (readAt pkt.info_byte 5 (MAX_NUM_PHY_BYTE - 5))
          (pkt.num_info_byte - 5) 0xAAAAAA with
      | none => none
      | some crc24_checksum =>
        let info_byte := writeAt pkt.info_byte pkt.num_info_byte.toNat
          [crc24_checksum &&& 0xFF, (crc24_checksum >>> 8) &&& 0xFF,
           (crc24_checksum >>> 16) &&& 0xFF]
        let phy_bit1 := writeAt pkt.phy_bit (5 * 8)
          (scramble (readAt info_bit (5 * 8) (pkt.num_info_bit - 5 * 8 + 24).toNat)
            pkt.channel_number)
        let phy_bit := writeAt phy_bit1 0 (readAt info_bit 0 (5 * 8))
        let phy_byte1 := writeAt pkt.phy_byte 5
          (scramble_byte scramble_table_ch37
            (readAt info_byte 5 (pkt.num_info_byte - 5 + 3).toNat) pkt.channel_number)
        let phy_byte := writeAt phy_byte1 0 (readAt info_byte 0 5)
        some { pkt with
          info_bit := info_bit
          info_byte := info_byte
          num_phy_bit := pkt.num_info_bit + 24
          phy_bit := phy_bit
          num_phy_byte := pkt.num_info_byte + 3
          phy_byte := phy_byte }

/-- A string literal as a C string: the codes of its characters. -/
def cstr (s : String) : List Nat := s.toList.map Char.toNat

/-! ### Auxiliary definitions used in the statements and proofs -/

/-- Bit k of v as a number, 0 or 1. -/
def tb (v k : Nat) : Nat := (v.testBit k).toNat

/-- One shift of the reflected CRC24 register with feedback `0xDA6000`. -/
def crc_shift (c : Nat) : Nat := (c >>> 1) ^^^ (if c % 2 = 1 then 0xDA6000 else 0)

/-- The 24-char register of `crc24` that holds the value v in the order in
which `crc24` emits it: `bit_store[23 - k]` is bit k of v. -/
def crc_reg (v : Nat) : List Nat :=
  [tb v 23, tb v 22, tb v 21, tb v 20, tb v 19, tb v 18, tb v 17, tb v 16,
   tb v 15, tb v 14, tb v 13, tb v 12, tb v 11, tb v 10, tb v 9, tb v 8,
   tb v 7, tb v 6, tb v 5, tb v 4, tb v 3, tb v 2, tb v 1, tb v 0]

/-- The n low bits of d, least significant first. -/
def lsb_bits : Nat → Nat → List Nat
  | 0, _ => []
  | n + 1, d => d % 2 :: lsb_bits n (d / 2)

/-- The chars of a byte sequence as `crc24` reads them: every byte expanded
by `int_to_bit`, least significant bit first. -/
def bytes_to_bits (bytes : List Nat) : List Nat :=
  (bytes.map (fun d => int_to_bit (d : Int))).flatten

/-- The character of the base-16 digit d, in upper or lower case. -/
def hex_digit_char (upper : Bool) (d : Nat) : Nat :=
  if d < 10 then 48 + d else if upper then 55 + d else 87 + d

/-- The 6-digit base-16 numeral of a 24-bit value, most significant digit
first. -/
def hex_numeral6 (upper : Bool) (v : Nat) : List Nat :=
  [hex_digit_char upper (v / 1048576 % 16), hex_digit_char upper (v / 65536 % 16),
   hex_digit_char upper (v / 4096 % 16), hex_digit_char upper (v / 256 % 16),
   hex_digit_char upper (v / 16 % 16), hex_digit_char upper (v % 16)]

/-- The byte b with its 8 bits in reverse order. -/
def rev8 (b : Nat) : Nat :=
  tb b 0 * 128 + tb b 1 * 64 + tb b 2 * 32 + tb b 3 * 16 + tb b 4 * 8 + tb b 5 * 4
    + tb b 6 * 2 + tb b 7

/-- The 24-bit value v with the bits of each of its three bytes reversed, the
bytes staying in place (`0xAAAAAA` becomes `0x555555`). -/
def rev_bytes (v : Nat) : Nat :=
  rev8 (v / 65536 % 256) * 65536 + rev8 (v / 256 % 256) * 256 + rev8 (v % 256)

/-- The number whose bit k is element k of the list (least significant first). -/
def bits_to_nat : List Nat → Nat
  | [] => 0
  | b :: rest => b + 2 * bits_to_nat rest

/-- The 24 bits of v, bit 0 first. -/
def bits24 (v : Nat) : List Nat := (List.range 24).map (fun k => v / 2 ^ k % 2)

/-- The advertising PDU type code the specification assigns to a packet type:
ADV_IND and IBEACON 0, ADV_DIRECT_IND 1, ADV_NONCONN_IND and DISCOVERY 2,
SCAN_REQ 3, SCAN_RSP 4, CONNECT_REQ 5, ADV_SCAN_IND 6, any other type 0xF. -/
def spec_adv_type_code : PKT_TYPE → Nat
  | ADV_IND => 0
  | IBEACON => 0
  | ADV_DIRECT_IND => 1
  | ADV_NONCONN_IND => 2
  | DISCOVERY => 2
  | SCAN_REQ => 3
  | SCAN_RSP => 4
  | CONNECT_REQ => 5
  | ADV_SCAN_IND => 6
  | _ => 0xF

/-- The number of characters left after every trailing character with code
≤ 32 or ≥ 127 is stripped. -/
def kept_length (hex : List Nat) : Nat :=
  (hex.reverse.dropWhile (fun c => decide (c ≤ 32 ∨ c ≥ 127))).length

/-- The C library `tolower` in the "C" locale. -/
def to_lower (c : Nat) : Nat := if 65 ≤ c ∧ c ≤ 90 then c + 32 else c

/-- Value of a base-16 digit character, 0 for any other character. -/
def hex_val (c : Nat) : Nat := (hex_digit_val c).getD 0

/-- The round trip of a hex string: `convert_hex_to_bit`, then the characters
`disp_bit_in_hex` prints for the chars written. -/
def hex_round_trip (hex : List Nat) : Option (List Nat) :=
  (convert_hex_to_bit hex).map (fun r => disp_bit_in_hex r.2)

/-- An example packet: the 5 header octets AA D6 BE 89 8E followed by the two
payload octets 31 32, on channel 37, before CRC and whitening. -/
def example_pkt : PKT_INFO where
  channel_number := 37
  pkt_type := RAW
  cmd_str := []
  num_info_bit := 56
  info_bit := fun i => (bytes_to_bits [0xAA, 0xD6, 0xBE, 0x89, 0x8E, 0x31, 0x32]).getD i 0
  num_info_byte := 7
  info_byte := fun i => [0xAA, 0xD6, 0xBE, 0x89, 0x8E, 0x31, 0x32].getD i 0
  num_phy_bit := 0
  phy_bit := fun _ => 0
  num_phy_byte := 0
  phy_byte := fun _ => 0
  num_phy_sample := 0
  phy_sample := fun _ => 0
  phy_sample1 := fun _ => 0
  space := 0

/-- The header-only packet: the 5 header octets AA D6 BE 89 8E and an empty
payload, on channel 37. -/
def header_only_pkt : PKT_INFO :=
  { example_pkt with num_info_bit := 40, num_info_byte := 5 }

/-- A packet shorter than its header: 20 info chars, all 1, and 5 info bytes,
on channel 37. -/
def short_pkt : PKT_INFO :=
  { example_pkt with num_info_bit := 20, num_info_byte := 5, info_bit := fun _ => 1 }

/-! ### PDU header encoders, opcodes, keystream and Gaussian filter table -/

/-- `fill_adv_pdu_header_byte` (lines 915-961): the two bytes written to
`byte_out`.  `byte_out[0] | (txadd << 6)` is computed on `int` and stored back
into a `uint8_t`, which keeps the low 8 bits; `txadd`, `rxadd` are not
negative where the function is called, so the shift is a multiplication. -/
def fill_adv_pdu_header_byte (pkt_type : PKT_TYPE) (txadd rxadd payload_len : Int) :
    List Nat :=
  let byte0 : Nat :=
    if pkt_type = ADV_IND ∨ pkt_type = IBEACON then 0
    else if pkt_type = ADV_DIRECT_IND then 1
    else if pkt_type = ADV_NONCONN_IND ∨ pkt_type = DISCOVERY then 2
    else if pkt_type = SCAN_REQ then 3
    else if pkt_type = SCAN_RSP then 4
    else if pkt_type = CONNECT_REQ then 5
    else if pkt_type = ADV_SCAN_IND then 6
    else 0xF
  let byte0 := byte0 ||| to_char (txadd * 2 ^ 6)
  let byte0 := byte0 ||| to_char (rxadd * 2 ^ 7)
  [byte0, to_char payload_len]

/-- `fill_data_pdu_header` (lines 855-878): the 16 chars written to `bit_out`. -/
def fill_data_pdu_header (llid nesn sn md length : Int) : List Nat :=
  [bitAt llid 0, bitAt llid 1, to_char nesn, to_char sn, to_char md, 0, 0, 0,
   bitAt length 0, bitAt length 1, bitAt length 2, bitAt length 3, bitAt length 4, 0, 0, 0]

/-- `fill_hop_sca` (lines 843-853): the 8 chars written to `bit_out`. -/
def fill_hop_sca (hop sca : Int) : List Nat :=
  [bitAt hop 0, bitAt hop 1, bitAt hop 2, bitAt hop 3, bitAt hop 4,
   bitAt sca 0, bitAt sca 1, bitAt sca 2]

/-- `get_opcode` (lines 880-913): the chars written to `bit_out` by the call of
`convert_hex_to_bit` on the string literal of the branch taken. -/
def get_opcode (pkt_type : PKT_TYPE) : Option (List Nat) :=
  let hex : List Nat :=
    if pkt_type = LL_CONNECTION_UPDATE_REQ then cstr "00"
    else if pkt_type = LL_CHANNEL_MAP_REQ then cstr "01"
    else if pkt_type = LL_TERMINATE_IND then cstr "02"
    else if pkt_type = LL_ENC_REQ then cstr "03"
    else if pkt_type = LL_ENC_RSP then cstr "04"
    else if pkt_type = LL_START_ENC_REQ then cstr "05"
    else if pkt_type = LL_START_ENC_RSP then cstr "06"
    else if pkt_type = LL_UNKNOWN_RSP then cstr "07"
    else if pkt_type = LL_FEATURE_REQ then cstr "08"
    else if pkt_type = LL_FEATURE_RSP then cstr "09"
    else if pkt_type = LL_PAUSE_ENC_REQ then cstr "0A"
    else if pkt_type = LL_PAUSE_ENC_RSP then cstr "0B"
    else if pkt_type = LL_VERSION_IND then cstr "0C"
    else if pkt_type = LL_REJECT_IND then cstr "0D"
    else cstr "FF"
  (convert_hex_to_bit hex).map (fun r => r.2)

/-- Every value of `PKT_TYPE`, in declaration order. -/
def all_pkt_types : List PKT_TYPE :=
  [INVALID_TYPE, RAW, DISCOVERY, IBEACON, ADV_IND, ADV_DIRECT_IND, ADV_NONCONN_IND,
   ADV_SCAN_IND, SCAN_REQ, SCAN_RSP, CONNECT_REQ, LL_DATA, LL_CONNECTION_UPDATE_REQ,
   LL_CHANNEL_MAP_REQ, LL_TERMINATE_IND, LL_ENC_REQ, LL_ENC_RSP, LL_START_ENC_REQ,
   LL_START_ENC_RSP, LL_UNKNOWN_RSP, LL_FEATURE_REQ, LL_FEATURE_RSP, LL_PAUSE_ENC_REQ,
   LL_PAUSE_ENC_RSP, LL_VERSION_IND, LL_REJECT_IND, NUM_PKT_TYPE]

/-- The advertising packet types that `fill_adv_pdu_header` names. -/
def is_adv_type (t : PKT_TYPE) : Bool :=
  t = ADV_IND ∨ t = IBEACON ∨ t = ADV_DIRECT_IND ∨ t = ADV_NONCONN_IND ∨ t = DISCOVERY ∨
    t = SCAN_REQ ∨ t = SCAN_RSP ∨ t = CONNECT_REQ ∨ t = ADV_SCAN_IND

/-- The whitening register of `scramble` before input char i is processed. -/
def scramble_state (channel_number : Int) (i : Nat) : List Nat :=
  scramble_step^[i] (scramble_init channel_number)

/-- The whitening keystream of a channel: element 6 of the register before
input char i is processed. -/
def scramble_keystream (channel_number : Int) (i : Nat) : Nat :=
  (scramble_state channel_number i).getD 6 0

/-- `SAMPLE_PER_SYMBOL` (line 103). -/
def SAMPLE_PER_SYMBOL : Nat := 4

/-- `LEN_GAUSS_FILTER` (line 106). -/
def LEN_GAUSS_FILTER : Nat := 4

/-- The table `gauss_coef` (line 111), every coefficient taken as the exact
decimal literal written in the source. -/
def gauss_coef : List ℚ :=
  [7.561773e-09, 1.197935e-06, 8.050684e-05, 2.326833e-03, 2.959908e-02, 1.727474e-01,
   4.999195e-01, 8.249246e-01, 9.408018e-01, 8.249246e-01, 4.999195e-01, 1.727474e-01,
   2.959908e-02, 2.326833e-03, 8.050684e-05, 1.197935e-06]

/-! ### Access ranges of the assembler, numbering of the whitening register -/

/-- The index ranges that `crc24_and_scramble_to_gen_phy_bit` (lines 1057-1080)
reads or writes in `info_bit`, `info_byte`, `phy_bit` and `phy_byte`, in
program order.  Every entry is the capacity of the array, the first index
of the access and the number of elements, which is the count handed to the
callee (a count ≤ 0 touches nothing); `crc_update` takes its count as a
`size_t`, and `disp_bit_in_hex` reads whole groups of 8 chars. -/
def crc24_and_scramble_accesses (pkt : PKT_INFO) : List (Nat × Int × Int) :=
  [(MAX_NUM_PHY_BYTE * 8, 5 * 8, pkt.num_info_bit - 5 * 8),
   (MAX_NUM_PHY_BYTE * 8, pkt.num_info_bit, 24),
   (MAX_NUM_PHY_BYTE, 5, (to_u64 (pkt.num_info_byte - 5) : Int)),
   (MAX_NUM_PHY_BYTE, pkt.num_info_byte, 3),
   (MAX_NUM_PHY_BYTE * 8, 0, (pkt.num_info_bit + 3 * 8 + 7) / 8 * 8),
   (MAX_NUM_PHY_BYTE, 0, pkt.num_info_byte + 3),
   (MAX_NUM_PHY_BYTE * 8, 5 * 8, pkt.num_info_bit - 5 * 8 + 24),
   (MAX_NUM_PHY_BYTE * 8, 5 * 8, pkt.num_info_bit - 5 * 8 + 24),
   (MAX_NUM_PHY_BYTE * 8, 0, 5 * 8),
   (MAX_NUM_PHY_BYTE * 8, 0, 5 * 8),
   (MAX_NUM_PHY_BYTE, 5, pkt.num_info_byte - 5 + 3),
   (MAX_NUM_PHY_BYTE, 5, pkt.num_info_byte - 5 + 3),
   (MAX_NUM_PHY_BYTE, 0, 5),
   (MAX_NUM_PHY_BYTE, 0, 5),
   (MAX_NUM_PHY_BYTE * 8, 0, (pkt.num_info_bit + 24 + 7) / 8 * 8),
   (MAX_NUM_PHY_BYTE, 0, pkt.num_info_byte + 3)]

/-- The 7-char whitening register whose chars, read as a binary numeral with
element 0 the most significant, make the number n. -/
def reg7 (n : Nat) : List Nat :=
  [n / 64 % 2, n / 32 % 2, n / 16 % 2, n / 8 % 2, n / 4 % 2, n / 2 % 2, n % 2]

/-- The register step of `scramble` on the number of the register: a right
shift that brings char 6 back to the front and XORs it into char 4. -/
def step7 (n : Nat) : Nat := (n / 2 + 64 * (n % 2)) ^^^ (4 * (n % 2))

/-! ## Theorems -/

theorem bitAt_eq (n : Int) (k : Nat) : bitAt n k = ((n / (2 : Int) ^ k) % 2).toNat := by
  unfold bitAt
  rw [Int.shiftRight_eq_div_pow]
  norm_num

theorem bitAt_lt_two (n : Int) (k : Nat) : bitAt n k < 2 := by
  unfold bitAt
  omega

/-- C7. `get_freq_by_channel_number` is the documented total map on every
integer: the three advertising channels, the two linear ranges, and the
all-ones indicator exactly outside 0-39. -/
theorem get_freq_by_channel_number_spec (ch : Int) :
    get_freq_by_channel_number 37 = 2402000000 ∧
    get_freq_by_channel_number 38 = 2426000000 ∧
    get_freq_by_channel_number 39 = 2480000000 ∧
    (0 ≤ ch ∧ ch ≤ 10 → (get_freq_by_channel_number ch : Int) = 2404000000 + 2000000 * ch) ∧
    (11 ≤ ch ∧ ch ≤ 36 →
      (get_freq_by_channel_number ch : Int) = 2428000000 + 2000000 * (ch - 11)) ∧
    (ch < 0 ∨ 39 < ch → get_freq_by_channel_number ch = 0xFFFFFFFFFFFFFFFF) ∧
    get_freq_by_channel_number 40 = 0xFFFFFFFFFFFFFFFF ∧
    get_freq_by_channel_number (-1) = 0xFFFFFFFFFFFFFFFF ∧
    (0 ≤ ch ∧ ch ≤ 39 → get_freq_by_channel_number ch ≠ 0xFFFFFFFFFFFFFFFF) := by
  refine ⟨by decide, by decide, by decide, ?_, ?_, ?_, by decide, by decide, ?_⟩
  · intro h
    unfold get_freq_by_channel_number to_u64
    split_ifs <;> omega
  · intro h
    unfold get_freq_by_channel_number to_u64
    split_ifs <;> omega
  · intro h
    unfold get_freq_by_channel_number to_u64
    split_ifs <;> omega
  · intro h
    unfold get_freq_by_channel_number to_u64
    split_ifs <;> omega

theorem tb_lt_two (v k : Nat) : tb v k < 2 := by
  unfold tb; cases v.testBit k <;> simp

theorem tb_crc_shift (x k : Nat) :
    tb (crc_shift x) k = (tb x (k + 1) + (x % 2) * tb 0xDA6000 k) % 2 := by
  unfold tb crc_shift
  rw [Nat.testBit_xor, Nat.testBit_shiftRight, Nat.add_comm 1 k]
  rcases Nat.mod_two_eq_zero_or_one x with hx | hx
  · simp [hx]
    cases x.testBit (k+1) <;> simp
  · simp [hx]
    cases x.testBit (k+1) <;> cases Nat.testBit 0xDA6000 k <;> simp

theorem tb_xor_bit_succ (v b k : Nat) (hb : b < 2) : tb (v ^^^ b) (k + 1) = tb v (k + 1) := by
  unfold tb
  rw [Nat.testBit_xor]
  have : b.testBit (k + 1) = false := by
    apply Nat.testBit_lt_two_pow
    calc b < 2 := hb
      _ = 2 ^ 1 := by norm_num
      _ ≤ 2 ^ (k + 1) := Nat.pow_le_pow_right (by norm_num) (by omega)
  simp [this]

theorem tb_zero_eq (v : Nat) : tb v 0 = v % 2 := by
  unfold tb
  rw [Nat.testBit_zero]
  rcases Nat.mod_two_eq_zero_or_one v with h | h <;> simp [h]

theorem tb_ge (v k n : Nat) (hv : v < 2 ^ n) (hk : n ≤ k) : tb v k = 0 := by
  unfold tb
  have : v.testBit k = false := by
    apply Nat.testBit_lt_two_pow
    exact lt_of_lt_of_le hv (Nat.pow_le_pow_right (by norm_num) hk)
  simp [this]

theorem crc24_step_reg (v b : Nat) (hv : v < 2 ^ 24) (hb : b < 2) :
    crc24_step (crc_reg v) b = crc_reg (crc_shift (v ^^^ b)) := by
  have hpar : (v ^^^ b) % 2 = (tb v 0 + b) % 2 := by
    rw [Nat.xor_mod_two_eq, tb_zero_eq]; omega
  have h24 : tb v 24 = 0 := tb_ge v 24 24 hv (le_refl _)
  have hP : tb 0xDA6000 23 = 1 ∧ tb 0xDA6000 22 = 1 ∧ tb 0xDA6000 21 = 0 ∧ tb 0xDA6000 20 = 1 ∧
      tb 0xDA6000 19 = 1 ∧ tb 0xDA6000 18 = 0 ∧ tb 0xDA6000 17 = 1 ∧ tb 0xDA6000 16 = 0 ∧
      tb 0xDA6000 15 = 0 ∧ tb 0xDA6000 14 = 1 ∧ tb 0xDA6000 13 = 1 ∧ tb 0xDA6000 12 = 0 ∧
      tb 0xDA6000 11 = 0 ∧ tb 0xDA6000 10 = 0 ∧ tb 0xDA6000 9 = 0 ∧ tb 0xDA6000 8 = 0 ∧
      tb 0xDA6000 7 = 0 ∧ tb 0xDA6000 6 = 0 ∧ tb 0xDA6000 5 = 0 ∧ tb 0xDA6000 4 = 0 ∧
      tb 0xDA6000 3 = 0 ∧ tb 0xDA6000 2 = 0 ∧ tb 0xDA6000 1 = 0 ∧ tb 0xDA6000 0 = 0 := by
    decide
  obtain ⟨p23, p22, p21, p20, p19, p18, p17, p16, p15, p14, p13, p12, p11, p10, p9, p8, p7, p6,
    p5, p4, p3, p2, p1, p0⟩ := hP
  simp only [crc_reg, crc24_step, tb_crc_shift, tb_xor_bit_succ _ _ _ hb, hpar, h24,
    p23, p22, p21, p20, p19, p18, p17, p16, p15, p14, p13, p12, p11, p10, p9, p8, p7, p6,
    p5, p4, p3, p2, p1, p0, List.getD_cons_zero, List.getD_cons_succ, List.drop_succ_cons,
    List.drop_zero, List.take_succ_cons, List.take_zero, List.cons_append, List.nil_append,
    mul_one, mul_zero, add_zero, zero_add, Nat.mod_mod, List.cons.injEq, and_true]
  have := tb_lt_two v
  refine ⟨?_, ?_, ?_, ?_, ?_, ?_, ?_, ?_, ?_, ?_, ?_, ?_, ?_, ?_, ?_, ?_, ?_, ?_, ?_, ?_, ?_, ?_, ?_, ?_⟩ <;>
  first | rfl | (simp only [Nat.add_mod, Nat.mod_mod]) | (rw [Nat.mod_eq_of_lt (this _)])

theorem crc_shift_xor (x y : Nat) : crc_shift (x ^^^ y) = crc_shift x ^^^ crc_shift y := by
  unfold crc_shift
  apply Nat.eq_of_testBit_eq
  intro i
  simp only [Nat.testBit_xor, Nat.testBit_shiftRight]
  generalize x.testBit (1 + i) = a
  generalize y.testBit (1 + i) = b
  rcases Nat.mod_two_eq_zero_or_one x with hx | hx <;>
  rcases Nat.mod_two_eq_zero_or_one y with hy | hy <;>
  · have h2 : (x ^^^ y) % 2 = (x % 2 + y % 2) % 2 := by
      rw [Nat.xor_mod_two_eq]; omega
    rw [hx, hy] at h2
    simp only [hx, hy, h2]
    generalize Nat.testBit 0xDA6000 i = c
    cases a <;> cases b <;> cases c <;> simp

theorem crc_shift_double (y : Nat) : crc_shift (2 * y) = y := by
  unfold crc_shift
  have : 2 * y % 2 = 0 := by omega
  simp [this, Nat.shiftRight_eq_div_pow]

theorem crc_shift_lt (c : Nat) (hc : c < 2 ^ 24) : crc_shift c < 2 ^ 24 := by
  unfold crc_shift
  apply Nat.xor_lt_two_pow
  · rw [Nat.shiftRight_eq_div_pow]; omega
  · split_ifs <;> norm_num

theorem xor_low_bit (d : Nat) : (d % 2) ^^^ (2 * (d / 2)) = d := by
  apply Nat.eq_of_testBit_eq
  intro i
  rw [Nat.testBit_xor]
  cases i with
  | zero =>
    simp only [Nat.testBit_zero]
    have h1 : 2 * (d / 2) % 2 = 0 := by omega
    have h2 : d % 2 % 2 = d % 2 := by omega
    simp [h1, h2]
  | succ j =>
    simp only [Nat.testBit_succ]
    have h1 : 2 * (d / 2) / 2 = d / 2 := by omega
    have h2 : d % 2 / 2 = 0 := by omega
    simp [h1, h2]

theorem iterate_crc_shift_xor (n x y : Nat) :
    crc_shift^[n] (x ^^^ y) = crc_shift^[n] x ^^^ crc_shift^[n] y := by
  induction n generalizing x y with
  | zero => rfl
  | succ n ih => simp only [Function.iterate_succ_apply, crc_shift_xor, ih]

theorem iterate_crc_shift_pow (n y : Nat) : crc_shift^[n] (2 ^ n * y) = y := by
  induction n generalizing y with
  | zero => simp
  | succ n ih =>
    rw [Function.iterate_succ_apply]
    have : 2 ^ (n + 1) * y = 2 * (2 ^ n * y) := by ring
    rw [this, crc_shift_double, ih]

theorem iterate_crc_shift_lt (n c : Nat) (hc : c < 2 ^ 24) : crc_shift^[n] c < 2 ^ 24 := by
  induction n generalizing c with
  | zero => simpa using hc
  | succ n ih =>
    rw [Function.iterate_succ_apply]
    exact ih _ (crc_shift_lt c hc)

theorem foldl_bits_eq_iterate (n c d : Nat) (hd : d < 2 ^ n) :
    (lsb_bits n d).foldl (fun c b => crc_shift (c ^^^ b)) c = crc_shift^[n] (c ^^^ d) := by
  induction n generalizing c d with
  | zero =>
    have : d = 0 := by simpa using hd
    subst this
    simp [lsb_bits]
  | succ n ih =>
    have hd2 : d / 2 < 2 ^ n := by
      rw [pow_succ] at hd; omega
    simp only [lsb_bits, List.foldl_cons, Function.iterate_succ_apply]
    rw [ih _ _ hd2]
    congr 1
    conv_rhs => rw [← xor_low_bit d, ← Nat.xor_assoc, crc_shift_xor, crc_shift_double]

set_option maxRecDepth 100000 in
theorem crc_table_eq_iterate : ∀ i < 256, crc_table.getD i 0 = crc_shift^[8] i := by
  decide

theorem split_low_byte (x : Nat) : (x % 256) ^^^ (2 ^ 8 * (x / 256)) = x := by
  apply Nat.eq_of_testBit_eq
  intro i
  have h256 : (256 : Nat) = 2 ^ 8 := by norm_num
  rw [Nat.testBit_xor, Nat.testBit_mul_pow_two, h256, Nat.testBit_mod_two_pow,
    ← Nat.shiftRight_eq_div_pow, Nat.testBit_shiftRight]
  by_cases h : i < 8
  · have : ¬ (i ≥ 8) := by omega
    simp [h, this]
  · have h8 : i ≥ 8 := by omega
    have : 8 + (i - 8) = i := by omega
    simp [h, h8, this]

theorem iterate8_eq_table (x : Nat) :
    crc_shift^[8] x = crc_table.getD (x % 256) 0 ^^^ (x / 256) := by
  conv_lhs => rw [← split_low_byte x]
  rw [iterate_crc_shift_xor, iterate_crc_shift_pow,
    crc_table_eq_iterate (x % 256) (Nat.mod_lt _ (by norm_num))]

theorem xor_byte_div (c d : Nat) (hd : d < 256) : (c ^^^ d) / 256 = c >>> 8 := by
  have h256 : (256 : Nat) = 2 ^ 8 := by norm_num
  rw [h256, ← Nat.shiftRight_eq_div_pow]
  apply Nat.eq_of_testBit_eq
  intro i
  rw [Nat.testBit_shiftRight, Nat.testBit_shiftRight, Nat.testBit_xor]
  have : d.testBit (8 + i) = false := by
    apply Nat.testBit_lt_two_pow
    exact lt_of_lt_of_le (h256 ▸ hd) (Nat.pow_le_pow_right (by norm_num) (by omega))
  simp [this]

theorem and_ff (x : Nat) : x &&& 0xff = x % 256 := by
  have := Nat.and_pow_two_sub_one_eq_mod x 8
  simpa using this

theorem and_ffffff (x : Nat) : x &&& 0xffffff = x % 2 ^ 24 := by
  have := Nat.and_pow_two_sub_one_eq_mod x 24
  simpa using this

theorem crc_update_step_eq (c d : Nat) (hc : c < 2 ^ 24) (hd : d < 256) :
    crc_update_step c d = crc_shift^[8] (c ^^^ d) := by
  have hx : c ^^^ d < 2 ^ 24 :=
    Nat.xor_lt_two_pow hc (lt_of_lt_of_le hd (by norm_num))
  have hlt := iterate_crc_shift_lt 8 _ hx
  unfold crc_update_step
  simp only []
  rw [and_ff, and_ffffff, ← xor_byte_div c d hd, ← iterate8_eq_table, Nat.mod_eq_of_lt hlt]

theorem crc_update_step_lt (c d : Nat) : crc_update_step c d < 2 ^ 24 := by
  unfold crc_update_step
  simp only []
  rw [and_ffffff]
  exact Nat.mod_lt _ (by norm_num)

theorem foldl_crc_update_step_lt (data : List Nat) (c : Nat) (hc : c < 2 ^ 24) :
    data.foldl crc_update_step c < 2 ^ 24 := by
  induction data generalizing c with
  | nil => simpa using hc
  | cons d rest ih => exact ih _ (crc_update_step_lt c d)

theorem foldl_crc24_step_reg (bits : List Nat) (v : Nat) (hv : v < 2 ^ 24)
    (hb : ∀ b ∈ bits, b < 2) :
    bits.foldl crc24_step (crc_reg v)
      = crc_reg (bits.foldl (fun c b => crc_shift (c ^^^ b)) v) := by
  induction bits generalizing v with
  | nil => rfl
  | cons b rest ih =>
    have hb0 : b < 2 := hb b (List.mem_cons_self _ _)
    have hx : v ^^^ b < 2 ^ 24 := Nat.xor_lt_two_pow hv (lt_of_lt_of_le hb0 (by norm_num))
    simp only [List.foldl_cons]
    rw [crc24_step_reg v b hv hb0]
    exact ih _ (crc_shift_lt _ hx) (fun x hx => hb x (List.mem_cons_of_mem _ hx))

theorem lsb_bits_lt_two (n d : Nat) : ∀ b ∈ lsb_bits n d, b < 2 := by
  induction n generalizing d with
  | zero => simp [lsb_bits]
  | succ n ih =>
    intro b hb
    simp only [lsb_bits, List.mem_cons] at hb
    rcases hb with h | h
    · omega
    · exact ih _ b h

theorem bitAt_natCast (d k : Nat) : bitAt (d : Int) k = d / 2 ^ k % 2 := by
  rw [bitAt_eq]
  have h : ((d : Int) / (2 : Int) ^ k % 2) = ((d / 2 ^ k % 2 : Nat) : Int) := by
    norm_cast
  rw [h, Int.toNat_natCast]

theorem int_to_bit_natCast (d : Nat) : int_to_bit (d : Int) = lsb_bits 8 d := by
  simp only [int_to_bit, lsb_bits, bitAt_natCast, List.cons.injEq, and_true]
  refine ⟨?_, ?_, ?_, ?_, ?_, ?_, ?_, ?_⟩ <;> omega

theorem int_to_bit_lt_two (n : Int) : ∀ b ∈ int_to_bit n, b < 2 := by
  intro b hb
  simp only [int_to_bit, List.mem_cons, List.mem_singleton, List.not_mem_nil, or_false] at hb
  rcases hb with h | h | h | h | h | h | h | h <;> (rw [h]; exact bitAt_lt_two _ _)

theorem bytes_to_bits_lt_two (bytes : List Nat) : ∀ b ∈ bytes_to_bits bytes, b < 2 := by
  intro b hb
  unfold bytes_to_bits at hb
  rw [List.mem_flatten] at hb
  obtain ⟨l, hl, hbl⟩ := hb
  rw [List.mem_map] at hl
  obtain ⟨d, _, rfl⟩ := hl
  exact int_to_bit_lt_two _ b hbl

theorem foldl_crc24_step_bytes (bytes : List Nat) (v : Nat) (hv : v < 2 ^ 24)
    (hb : ∀ d ∈ bytes, d < 256) :
    (bytes_to_bits bytes).foldl crc24_step (crc_reg v)
      = crc_reg (bytes.foldl crc_update_step v) := by
  induction bytes generalizing v with
  | nil => rfl
  | cons d rest ih =>
    have hd : d < 256 := hb d (List.mem_cons_self _ _)
    have hstep : (int_to_bit (d : Int)).foldl crc24_step (crc_reg v)
        = crc_reg (crc_update_step v d) := by
      rw [int_to_bit_natCast, foldl_crc24_step_reg _ _ hv (lsb_bits_lt_two 8 d),
        foldl_bits_eq_iterate 8 v d (by simpa using hd), crc_update_step_eq v d hv hd]
    have hsplit : bytes_to_bits (d :: rest) = int_to_bit (d : Int) ++ bytes_to_bits rest := by
      simp [bytes_to_bits]
    rw [hsplit, List.foldl_append, hstep, List.foldl_cons]
    exact ih _ (crc_update_step_lt v d) (fun x hx => hb x (List.mem_cons_of_mem _ hx))

theorem crc_update_eq_foldl (v : Nat) (hv : v < 2 ^ 24) (bytes : List Nat) :
    crc_update v bytes = bytes.foldl crc_update_step v := by
  unfold crc_update
  rw [and_ffffff, Nat.mod_eq_of_lt (foldl_crc_update_step_lt bytes v hv)]

theorem crc_update_lt (v : Nat) (bytes : List Nat) : crc_update v bytes < 2 ^ 24 := by
  unfold crc_update
  rw [and_ffffff]
  exact Nat.mod_lt _ (by norm_num)

theorem crc24_result_reg (w : Nat) :
    crc24_result (crc_reg w) = (List.range 24).map (fun k => tb w k) := by
  rfl

set_option maxRecDepth 100000 in
theorem octet_hex_to_bit_digits : ∀ u : Bool, ∀ a < 16, ∀ b < 16,
    octet_hex_to_bit (hex_digit_char u a) (hex_digit_char u b) = lsb_bits 8 (16 * a + b) := by
  decide

set_option maxRecDepth 100000 in
theorem lsb_bits_rev8 : ∀ b < 256,
    lsb_bits 8 (rev8 b) = [tb b 7, tb b 6, tb b 5, tb b 4, tb b 3, tb b 2, tb b 1, tb b 0] := by
  decide

theorem rev8_lt (b : Nat) : rev8 b < 256 := by
  unfold rev8
  have := tb_lt_two b
  have h0 := this 0
  have h1 := this 1
  have h2 := this 2
  have h3 := this 3
  have h4 := this 4
  have h5 := this 5
  have h6 := this 6
  have h7 := this 7
  omega

theorem tb_eq_div_mod (v k : Nat) : tb v k = v / 2 ^ k % 2 := Nat.toNat_testBit v k

theorem hex_digit_char_range (u : Bool) (d : Nat) (hd : d < 16) :
    32 < hex_digit_char u d ∧ hex_digit_char u d < 127 := by
  unfold hex_digit_char
  split_ifs <;> omega

theorem convert_hex_numeral6 (u : Bool) (w : Nat) :
    convert_hex_to_bit (hex_numeral6 u w)
      = some (24, lsb_bits 8 (w / 65536 % 256) ++ lsb_bits 8 (w / 256 % 256)
          ++ lsb_bits 8 (w % 256)) := by
  have hr := hex_digit_char_range u (w % 16) (Nat.mod_lt _ (by norm_num))
  have hstrip : strip_loop (hex_numeral6 u w) 6 = some 6 := by
    simp only [strip_loop, hex_numeral6, List.getD_cons_succ, List.getD_cons_zero]
    rw [if_neg (by omega)]
  have h1 := octet_hex_to_bit_digits u (w / 1048576 % 16) (Nat.mod_lt _ (by norm_num))
    (w / 65536 % 16) (Nat.mod_lt _ (by norm_num))
  have h2 := octet_hex_to_bit_digits u (w / 4096 % 16) (Nat.mod_lt _ (by norm_num))
    (w / 256 % 16) (Nat.mod_lt _ (by norm_num))
  have h3 := octet_hex_to_bit_digits u (w / 16 % 16) (Nat.mod_lt _ (by norm_num))
    (w % 16) (Nat.mod_lt _ (by norm_num))
  have e1 : 16 * (w / 1048576 % 16) + w / 65536 % 16 = w / 65536 % 256 := by omega
  have e2 : 16 * (w / 4096 % 16) + w / 256 % 16 = w / 256 % 256 := by omega
  have e3 : 16 * (w / 16 % 16) + w % 16 = w % 256 := by omega
  rw [e1] at h1
  rw [e2] at h2
  rw [e3] at h3
  have hlen : (hex_numeral6 u w).length = 6 := rfl
  unfold convert_hex_to_bit
  rw [hlen, hstrip]
  simp only [hex_numeral6, convert_octets, List.take_succ_cons, List.take_zero, h1, h2, h3]
  simp

theorem crc_reg_eq_rev_bytes (v : Nat) (hv : v < 2 ^ 24) :
    lsb_bits 8 (rev_bytes v / 65536 % 256) ++ lsb_bits 8 (rev_bytes v / 256 % 256)
      ++ lsb_bits 8 (rev_bytes v % 256) = crc_reg v := by
  have r2 := rev8_lt (v / 65536 % 256)
  have r1 := rev8_lt (v / 256 % 256)
  have r0 := rev8_lt (v % 256)
  have e2 : rev_bytes v / 65536 % 256 = rev8 (v / 65536 % 256) := by unfold rev_bytes; omega
  have e1 : rev_bytes v / 256 % 256 = rev8 (v / 256 % 256) := by unfold rev_bytes; omega
  have e0 : rev_bytes v % 256 = rev8 (v % 256) := by unfold rev_bytes; omega
  rw [e2, e1, e0, lsb_bits_rev8 _ (Nat.mod_lt _ (by norm_num)),
    lsb_bits_rev8 _ (Nat.mod_lt _ (by norm_num)), lsb_bits_rev8 _ (Nat.mod_lt _ (by norm_num))]
  simp only [crc_reg, tb_eq_div_mod, List.cons_append, List.nil_append, List.cons.injEq, and_true]
  refine ⟨?_, ?_, ?_, ?_, ?_, ?_, ?_, ?_, ?_, ?_, ?_, ?_, ?_, ?_, ?_, ?_, ?_, ?_, ?_, ?_, ?_,
    ?_, ?_, ?_⟩ <;> omega

theorem crc24_reg_bytes (bytes : List Nat) (v : Nat) (u : Bool) (hv : v < 2 ^ 24)
    (hb : ∀ d ∈ bytes, d < 256) :
    crc24 (bytes_to_bits bytes) (hex_numeral6 u (rev_bytes v))
      = some (bits24 (crc_update v bytes)) := by
  unfold crc24
  rw [convert_hex_numeral6, crc_reg_eq_rev_bytes v hv]
  have hlen : (crc_reg v).length = 24 := rfl
  simp only [hlen, if_true]
  rw [foldl_crc24_step_bytes bytes v hv hb, crc24_result_reg, crc_update_eq_foldl v hv]
  simp only [bits24, tb_eq_div_mod]

theorem to_u64_natCast (n : Nat) (hn : n < 2 ^ 64) : to_u64 (n : Int) = n := by
  unfold to_u64
  omega

theorem crc24_byte_eq (bytes : List Nat) (v : Nat) (hv : v < 2 ^ 24)
    (hlen : bytes.length < 2 ^ 31) :
    crc24_byte bytes (bytes.length : Int) (v : Int) = some (crc_update v bytes) := by
  unfold crc24_byte
  rw [to_u64_natCast _ (by omega), to_u64_natCast _ (by omega)]
  simp

/-! ### Channel frequency map, CRC24 cross-check, whitening, advertising header -/

/-- Witness for C7: channel 5 lies in the first linear range. -/
theorem get_freq_by_channel_number_spec_witness :
    (get_freq_by_channel_number 5 : Int) = 2404000000 + 2000000 * 5 :=
  (get_freq_by_channel_number_spec 5).2.2.2.1 ⟨by decide, by decide⟩

theorem bits_to_nat_bits24 (x : Nat) (hx : x < 2 ^ 24) : bits_to_nat (bits24 x) = x := by
  have h : bits24 x = [x / 2 ^ 0 % 2, x / 2 ^ 1 % 2, x / 2 ^ 2 % 2, x / 2 ^ 3 % 2,
      x / 2 ^ 4 % 2, x / 2 ^ 5 % 2, x / 2 ^ 6 % 2, x / 2 ^ 7 % 2, x / 2 ^ 8 % 2,
      x / 2 ^ 9 % 2, x / 2 ^ 10 % 2, x / 2 ^ 11 % 2, x / 2 ^ 12 % 2, x / 2 ^ 13 % 2,
      x / 2 ^ 14 % 2, x / 2 ^ 15 % 2, x / 2 ^ 16 % 2, x / 2 ^ 17 % 2, x / 2 ^ 18 % 2,
      x / 2 ^ 19 % 2, x / 2 ^ 20 % 2, x / 2 ^ 21 % 2, x / 2 ^ 22 % 2, x / 2 ^ 23 % 2] := rfl
  rw [h]
  simp only [bits_to_nat]
  omega

/-- C1 (as amended). For every byte sequence and every 24-bit value v, the
table-driven CRC24 started from v and the bit-serial CRC24 run on the
LSB-first bit expansion of the same bytes, started from the 6-digit hex
numeral (either case) of v with the bits of each byte reversed, give the same
24-bit value: output char k of crc24 is bit k of the table-driven result.  For
the empty payload both are v. -/
theorem crc24_table_eq_bit_serial_bitrev (bytes : List Nat) (v : Nat) (upper : Bool)
    (hv : v < 2 ^ 24) (hb : ∀ d ∈ bytes, d < 256) (hlen : bytes.length < 2 ^ 31) :
    crc24_byte bytes (bytes.length : Int) (v : Int) = some (crc_update v bytes) ∧
    crc24 (bytes_to_bits bytes) (hex_numeral6 upper (rev_bytes v))
      = some (bits24 (crc_update v bytes)) ∧
    bits_to_nat (bits24 (crc_update v bytes)) = crc_update v bytes ∧
    crc_update v [] = v :=
  ⟨crc24_byte_eq bytes v hv hlen, crc24_reg_bytes bytes v upper hv hb,
    bits_to_nat_bits24 _ (crc_update_lt v bytes), by
      rw [crc_update_eq_foldl v hv]; rfl⟩

set_option maxRecDepth 100000 in
/-- Witness for C1 (as amended): the payload 31 32 from 0xAAAAAA, whose
bit-reversed numeral is 555555. -/
theorem crc24_table_eq_bit_serial_bitrev_witness :
    hex_numeral6 true (rev_bytes 0xAAAAAA) = cstr "555555" ∧
    crc24_byte [0x31, 0x32] 2 0xAAAAAA = some (crc_update 0xAAAAAA [0x31, 0x32]) ∧
    crc24 (bytes_to_bits [0x31, 0x32]) (hex_numeral6 true (rev_bytes 0xAAAAAA))
      = some (bits24 (crc_update 0xAAAAAA [0x31, 0x32])) :=
  ⟨by decide,
   (crc24_table_eq_bit_serial_bitrev [0x31, 0x32] 0xAAAAAA true (by norm_num)
      (by decide) (by decide)).1,
   (crc24_table_eq_bit_serial_bitrev [0x31, 0x32] 0xAAAAAA true (by norm_num)
      (by decide) (by decide)).2.1⟩

set_option maxRecDepth 100000 in
/-- Counterexample to C1 as stated: from the same initial value 0x000001 given
as the numeral 000001, on the empty payload, the table-driven CRC24 is 1 while
the 24 chars of crc24 read LSB-first are 0x80; neither are the two equal nor
is the bit-serial result the initial value. -/
theorem crc24_same_init_counterexample :
    hex_numeral6 true 1 = cstr "000001" ∧
    crc24_byte [] 0 1 = some 1 ∧
    crc24 (bytes_to_bits []) (hex_numeral6 true 1) = some (bits24 0x80) ∧
    bits_to_nat (bits24 0x80) = 0x80 ∧
    bits24 0x80 ≠ bits24 1 := by
  decide

theorem scramble_loop_involutive (st x : List Nat) (hx : ∀ b ∈ x, b = 0 ∨ b = 1) :
    scramble_loop st (scramble_loop st x) = x := by
  induction x generalizing st with
  | nil => rfl
  | cons b rest ih =>
    have hb : b = 0 ∨ b = 1 := hx b (List.mem_cons_self _ _)
    simp only [scramble_loop, List.cons.injEq]
    refine ⟨by omega, ih _ (fun y hy => hx y (List.mem_cons_of_mem _ hy))⟩

/-- C2. Whitening is an involution: for every channel number (0-39 included)
and every sequence x of chars that are 0 or 1, whatever its length,
scramble(scramble(x, ch), ch) = x. -/
theorem scramble_involution (ch : Int) (x : List Nat) (hx : ∀ b ∈ x, b = 0 ∨ b = 1) :
    scramble (scramble x ch) ch = x :=
  scramble_loop_involutive _ x hx

/-- Witness for C2: eight chars on channel 37. -/
theorem scramble_involution_witness :
    scramble (scramble [1, 0, 1, 1, 0, 0, 0, 1] 37) 37 = [1, 0, 1, 1, 0, 0, 0, 1] :=
  scramble_involution 37 [1, 0, 1, 1, 0, 0, 0, 1] (by decide)

/-- C10. For every packet type, txAdd, rxAdd in {0,1} and every payload_len,
fill_adv_pdu_header writes 16 chars: chars 0-3 the type code LSB-first, chars
4-5 zero, char 6 txAdd, char 7 rxAdd, chars 8-13 the low 6 bits of
payload_len LSB-first, chars 14-15 zero. -/
theorem fill_adv_pdu_header_layout (t : PKT_TYPE) (txadd rxadd payload_len : Int)
    (htx : txadd = 0 ∨ txadd = 1) (hrx : rxadd = 0 ∨ rxadd = 1) :
    fill_adv_pdu_header t txadd rxadd payload_len =
      [spec_adv_type_code t % 2, spec_adv_type_code t / 2 % 2, spec_adv_type_code t / 4 % 2,
       spec_adv_type_code t / 8 % 2, 0, 0, txadd.toNat, rxadd.toNat,
       (payload_len % 64).toNat % 2, (payload_len % 64).toNat / 2 % 2,
       (payload_len % 64).toNat / 4 % 2, (payload_len % 64).toNat / 8 % 2,
       (payload_len % 64).toNat / 16 % 2, (payload_len % 64).toNat / 32 % 2, 0, 0] := by
  have hp : ∀ k, bitAt payload_len k = ((payload_len / (2 : Int) ^ k) % 2).toNat := bitAt_eq _
  have htc : to_char txadd = txadd.toNat := by unfold to_char; omega
  have hrc : to_char rxadd = rxadd.toNat := by unfold to_char; omega
  have hl : fill_adv_pdu_header t txadd rxadd payload_len =
      [spec_adv_type_code t % 2, spec_adv_type_code t / 2 % 2, spec_adv_type_code t / 4 % 2,
       spec_adv_type_code t / 8 % 2, 0, 0, to_char txadd, to_char rxadd,
        bitAt payload_len 0, bitAt payload_len 1, bitAt payload_len 2,
        bitAt payload_len 3, bitAt payload_len 4, bitAt payload_len 5, 0, 0] := by
    cases t <;> rfl
  rw [hl, htc, hrc]
  simp only [hp, List.cons.injEq, true_and, and_true]
  refine ⟨?_, ?_, ?_, ?_, ?_, ?_⟩ <;> omega

/-- Witness for C10: a CONNECT_REQ header with txAdd 1, rxAdd 0, length 34. -/
theorem fill_adv_pdu_header_layout_witness :
    fill_adv_pdu_header CONNECT_REQ 1 0 34 =
      [1, 0, 1, 0, 0, 0, 1, 0, 0, 1, 0, 0, 0, 1, 0, 0] :=
  fill_adv_pdu_header_layout CONNECT_REQ 1 0 34 (Or.inr rfl) (Or.inl rfl)

/-! ### Packet assembly -/

theorem readAt_length (a : Nat → Nat) (off n : Nat) : (readAt a off n).length = n := by
  simp [readAt]

theorem readAt_getD (a : Nat → Nat) (off n i : Nat) (hi : i < n) :
    (readAt a off n).getD i 0 = a (off + i) := by
  unfold readAt
  rw [List.getD_eq_getElem _ _ (by simpa using hi)]
  simp

theorem readAt_ext (a : Nat → Nat) (off n : Nat) (xs : List Nat) (hlen : xs.length = n)
    (h : ∀ i, i < n → a (off + i) = xs.getD i 0) : readAt a off n = xs := by
  apply List.ext_getElem
  · rw [readAt_length, hlen]
  · intro i h1 h2
    have hi : i < n := by simpa [readAt_length] using h1
    have := h i hi
    rw [List.getD_eq_getElem _ _ h2] at this
    simp [readAt, this]

theorem writeAt_of_lt (a : Nat → Nat) (off : Nat) (xs : List Nat) (i : Nat) (h : i < off) :
    writeAt a off xs i = a i := by
  unfold writeAt
  rw [if_neg (by omega)]

theorem writeAt_of_ge (a : Nat → Nat) (off : Nat) (xs : List Nat) (i : Nat)
    (h : off + xs.length ≤ i) : writeAt a off xs i = a i := by
  unfold writeAt
  rw [if_neg (by omega)]

theorem writeAt_of_mem (a : Nat → Nat) (off : Nat) (xs : List Nat) (i : Nat)
    (h : i < xs.length) : writeAt a off xs (off + i) = xs.getD i 0 := by
  unfold writeAt
  rw [if_pos (by omega)]
  congr 1
  omega

theorem scramble_loop_length (st x : List Nat) : (scramble_loop st x).length = x.length := by
  induction x generalizing st with
  | nil => rfl
  | cons b rest ih => simp [scramble_loop, ih]

theorem scramble_length (x : List Nat) (ch : Int) : (scramble x ch).length = x.length :=
  scramble_loop_length _ x

theorem crc24_length (bits init crc : List Nat) (h : crc24 bits init = some crc) :
    crc.length = 24 := by
  unfold crc24 at h
  split at h
  · exact absurd h (by simp)
  · split_ifs at h
    simp only [Option.some.injEq] at h
    rw [← h]
    simp [crc24_result]

/-- What a defined call of the assembler computes, field by field. -/
theorem crc24_and_scramble_some (table : Nat → Nat) (init : List Nat) (pkt pkt' : PKT_INFO)
    (h : crc24_and_scramble_to_gen_phy_bit table init pkt = some pkt') :
    ∃ crc cs,
      0 ≤ pkt.num_info_bit ∧ pkt.num_info_bit + 24 ≤ 376 ∧
      0 ≤ pkt.num_info_byte ∧ pkt.num_info_byte + 3 ≤ 47 ∧
      crc24 (readAt pkt.info_bit 40 (pkt.num_info_bit - 40).toNat) init = some crc ∧
      crc24_byte (readAt pkt.info_byte 5 42) (pkt.num_info_byte - 5) 0xAAAAAA = some cs ∧
      pkt' = { pkt with
        info_bit := writeAt pkt.info_bit pkt.num_info_bit.toNat crc
        info_byte := writeAt pkt.info_byte pkt.num_info_byte.toNat
          [cs &&& 0xFF, (cs >>> 8) &&& 0xFF, (cs >>> 16) &&& 0xFF]
        num_phy_bit := pkt.num_info_bit + 24
        phy_bit := writeAt (writeAt pkt.phy_bit 40
            (scramble (readAt (writeAt pkt.info_bit pkt.num_info_bit.toNat crc) 40
              (pkt.num_info_bit - 40 + 24).toNat) pkt.channel_number))
          0 (readAt (writeAt pkt.info_bit pkt.num_info_bit.toNat crc) 0 40)
        num_phy_byte := pkt.num_info_byte + 3
        phy_byte := writeAt (writeAt pkt.phy_byte 5
            (scramble_byte table
              (readAt (writeAt pkt.info_byte pkt.num_info_byte.toNat
                [cs &&& 0xFF, (cs >>> 8) &&& 0xFF, (cs >>> 16) &&& 0xFF]) 5
                (pkt.num_info_byte - 5 + 3).toNat) pkt.channel_number))
          0 (readAt (writeAt pkt.info_byte pkt.num_info_byte.toNat
                [cs &&& 0xFF, (cs >>> 8) &&& 0xFF, (cs >>> 16) &&& 0xFF]) 0 5) } := by
  unfold crc24_and_scramble_to_gen_phy_bit at h
  simp only [MAX_NUM_PHY_BYTE] at h
  split_ifs at h with h1 h2
  simp only [not_not] at h1 h2
  norm_num at h1 h2 h
  split at h
  · exact absurd h (by simp)
  · rename_i crc hcrc
    split at h
    · exact absurd h (by simp)
    · rename_i cs hcs
      simp only [Option.some.injEq] at h
      exact ⟨crc, cs, h1.1, h1.2, h2.1, h2.2, hcrc, hcs, h.symm⟩

theorem readAt_writeAt_append (a : Nat → Nat) (s k : Nat) (xs : List Nat) :
    readAt (writeAt a (s + k) xs) s (k + xs.length) = readAt a s k ++ xs := by
  apply readAt_ext
  · rw [List.length_append, readAt_length]
  · intro i hi
    by_cases hik : i < k
    · rw [writeAt_of_lt _ _ _ _ (by omega), List.getD_append _ _ _ _ (by rw [readAt_length]; exact hik),
        readAt_getD _ _ _ _ hik]
    · have e : s + i = s + k + (i - k) := by omega
      rw [e, writeAt_of_mem _ _ _ _ (by omega),
        List.getD_append_right _ _ _ _ (by rw [readAt_length]; omega), readAt_length]

theorem readAt_writeAt_header (a : Nat → Nat) (hdr body : List Nat) :
    readAt (writeAt (writeAt a hdr.length body) 0 hdr) hdr.length body.length = body := by
  apply readAt_ext _ _ _ _ rfl
  intro i hi
  rw [writeAt_of_ge _ _ _ _ (by omega), writeAt_of_mem _ _ _ _ hi]

set_option maxRecDepth 100000 in
theorem example_pkt_defined :
    (crc24_and_scramble_to_gen_phy_bit (fun _ => 0) (cstr "555555") example_pkt).isSome
      = true := by
  decide

/-- C3. For every packet with num_info_bit ≥ 40 on which the call is defined,
phy_bit[40 .. num_info_bit+24) is scramble, keyed by the channel number, of
info_bit[40 .. num_info_bit) followed by the 24 chars of crc24 over
info_bit[40 .. num_info_bit) from crc_init_hex: the CRC is taken over the
un-whitened payload and whitening covers payload and CRC. -/
theorem phy_bit_is_whitened_payload_and_crc (table : Nat → Nat) (init : List Nat)
    (pkt pkt' : PKT_INFO) (h40 : 40 ≤ pkt.num_info_bit)
    (h : crc24_and_scramble_to_gen_phy_bit table init pkt = some pkt') :
    ∃ crc, crc24 (readAt pkt.info_bit 40 (pkt.num_info_bit - 40).toNat) init = some crc ∧
      readAt pkt'.phy_bit 40 (pkt.num_info_bit + 24 - 40).toNat
        = scramble (readAt pkt.info_bit 40 (pkt.num_info_bit - 40).toNat ++ crc)
            pkt.channel_number := by
  obtain ⟨crc, cs, h1, h2, h3, h4, hcrc, hcs, rfl⟩ := crc24_and_scramble_some table init pkt pkt' h
  refine ⟨crc, hcrc, ?_⟩
  have hlen := crc24_length _ _ _ hcrc
  obtain ⟨k, hk⟩ : ∃ k : Nat, pkt.num_info_bit = 40 + k := ⟨(pkt.num_info_bit - 40).toNat, by omega⟩
  have e1 : (pkt.num_info_bit - 40).toNat = k := by omega
  have e2 : (pkt.num_info_bit - 40 + 24).toNat = k + crc.length := by omega
  have e3 : (pkt.num_info_bit + 24 - 40).toNat = k + crc.length := by omega
  have e4 : pkt.num_info_bit.toNat = 40 + k := by omega
  simp only [e1, e2, e3, e4]
  rw [readAt_writeAt_append]
  have hh : (readAt (writeAt pkt.info_bit (40 + k) crc) 0 40).length = 40 := readAt_length _ _ _
  have hb : (scramble (readAt pkt.info_bit 40 k ++ crc) pkt.channel_number).length
      = k + crc.length := by
    rw [scramble_length, List.length_append, readAt_length]
  have := readAt_writeAt_header pkt.phy_bit (readAt (writeAt pkt.info_bit (40 + k) crc) 0 40)
    (scramble (readAt pkt.info_bit 40 k ++ crc) pkt.channel_number)
  rw [hh, hb] at this
  exact this

set_option maxRecDepth 100000 in
/-- Witness for C3: the example packet with the CRC started from 555555. -/
theorem phy_bit_is_whitened_payload_and_crc_witness :
    ∃ crc, crc24 (readAt example_pkt.info_bit 40 (example_pkt.num_info_bit - 40).toNat)
        (cstr "555555") = some crc ∧
      readAt ((crc24_and_scramble_to_gen_phy_bit (fun _ => 0) (cstr "555555")
          example_pkt).get example_pkt_defined).phy_bit 40
          (example_pkt.num_info_bit + 24 - 40).toNat
        = scramble (readAt example_pkt.info_bit 40 (example_pkt.num_info_bit - 40).toNat ++ crc)
            example_pkt.channel_number :=
  phy_bit_is_whitened_payload_and_crc (fun _ => 0) (cstr "555555") example_pkt _
    (by decide) (Option.some_get example_pkt_defined).symm

/-- The header copy in terms of the arrays after the call: on every defined
call phy_bit[0..40) and phy_byte[0..5) on exit are info_bit[0..40) and
info_byte[0..5) on exit (lines 1070, 1074); the call leaves info_byte[0..5)
and info_bit[0..num_info_bit) as they were on entry (lines 1058, 1061-1063
write from num_info_bit and from num_info_byte on). -/
theorem header_copy_post (table : Nat → Nat) (init : List Nat)
    (pkt pkt' : PKT_INFO)
    (h : crc24_and_scramble_to_gen_phy_bit table init pkt = some pkt') :
    (∀ i, i < 40 → pkt'.phy_bit i = pkt'.info_bit i) ∧
    (∀ i, i < 5 → pkt'.phy_byte i = pkt'.info_byte i) ∧
    (∀ i, i < 5 → pkt'.info_byte i = pkt.info_byte i) ∧
    (∀ i : Nat, (i : Int) < pkt.num_info_bit → pkt'.info_bit i = pkt.info_bit i) := by
  obtain ⟨crc, cs, h1, h2, h3, h4, hcrc, hcs, rfl⟩ := crc24_and_scramble_some table init pkt pkt' h
  have hnb : 5 ≤ pkt.num_info_byte := by
    unfold crc24_byte to_u64 at hcs
    dsimp only at hcs
    split_ifs at hcs with hle
    rw [readAt_length] at hle
    omega
  refine ⟨?_, ?_, ?_, ?_⟩
  · intro i hi
    have := writeAt_of_mem (writeAt pkt.phy_bit 40
        (scramble (readAt (writeAt pkt.info_bit pkt.num_info_bit.toNat crc) 40
          (pkt.num_info_bit - 40 + 24).toNat) pkt.channel_number)) 0
      (readAt (writeAt pkt.info_bit pkt.num_info_bit.toNat crc) 0 40) i
      (by rw [readAt_length]; exact hi)
    rw [Nat.zero_add, readAt_getD _ _ _ _ hi, Nat.zero_add] at this
    exact this
  · intro i hi
    have := writeAt_of_mem (writeAt pkt.phy_byte 5
        (scramble_byte table
          (readAt (writeAt pkt.info_byte pkt.num_info_byte.toNat
            [cs &&& 0xFF, (cs >>> 8) &&& 0xFF, (cs >>> 16) &&& 0xFF]) 5
            (pkt.num_info_byte - 5 + 3).toNat) pkt.channel_number)) 0
      (readAt (writeAt pkt.info_byte pkt.num_info_byte.toNat
            [cs &&& 0xFF, (cs >>> 8) &&& 0xFF, (cs >>> 16) &&& 0xFF]) 0 5) i
      (by rw [readAt_length]; exact hi)
    rw [Nat.zero_add, readAt_getD _ _ _ _ hi, Nat.zero_add] at this
    exact this
  · intro i hi
    exact writeAt_of_lt _ _ _ _ (by omega)
  · intro i hi
    exact writeAt_of_lt _ _ _ _ (by omega)

set_option maxRecDepth 100000 in
/-- C4 at a failing input: 20 info chars, all 1, 5 info bytes, CRC started
from 000000.  The call is defined; info_bit[0..40) holds 40 ones on entry and
phy_bit[0..40) holds 20 ones followed by 20 zeros on exit: the CRC chars,
written at info_bit[20..44) before the copy (line 1058 before line 1070), are
what phy_bit[20..40) receives. -/
theorem header_not_copied_short_packet :
    readAt short_pkt.info_bit 0 40 = List.replicate 40 1 ∧
    (crc24_and_scramble_to_gen_phy_bit (fun _ => 0) (cstr "000000") short_pkt).map
        (fun p => readAt p.phy_bit 0 40)
      = some (List.replicate 20 1 ++ List.replicate 20 0) := by
  decide

/-- C4 (as amended). For every packet that holds its 5 header octets
(num_info_bit ≥ 40), every channel number and every CRC initial value on which
the call is defined, the first 5 octets are copied verbatim from the input:
phy_bit[0..40) on exit = info_bit[0..40) on entry and phy_byte[0..5) on exit =
info_byte[0..5) on entry, and the call leaves info_bit[0..40) and
info_byte[0..5) as they were. -/
theorem header_copied_verbatim (table : Nat → Nat) (init : List Nat)
    (pkt pkt' : PKT_INFO) (h40 : 40 ≤ pkt.num_info_bit)
    (h : crc24_and_scramble_to_gen_phy_bit table init pkt = some pkt') :
    (∀ i, i < 40 → pkt'.phy_bit i = pkt.info_bit i) ∧
    (∀ i, i < 5 → pkt'.phy_byte i = pkt.info_byte i) ∧
    (∀ i, i < 40 → pkt'.info_bit i = pkt.info_bit i) ∧
    (∀ i, i < 5 → pkt'.info_byte i = pkt.info_byte i) := by
  obtain ⟨hb, hB, hiB, hib⟩ := header_copy_post table init pkt pkt' h
  have hib40 : ∀ i, i < 40 → pkt'.info_bit i = pkt.info_bit i :=
    fun i hi => hib i (by omega)
  exact ⟨fun i hi => (hb i hi).trans (hib40 i hi),
    fun i hi => (hB i hi).trans (hiB i hi), hib40, hiB⟩

/-- Witness for C4: the example packet, which holds 56 info chars, with the
CRC started from 555555. -/
theorem header_copied_verbatim_witness :
    (40 : Int) ≤ example_pkt.num_info_bit ∧
    (∀ i, i < 40 →
      ((crc24_and_scramble_to_gen_phy_bit (fun _ => 0) (cstr "555555")
          example_pkt).get example_pkt_defined).phy_bit i = example_pkt.info_bit i) ∧
    (∀ i, i < 5 →
      ((crc24_and_scramble_to_gen_phy_bit (fun _ => 0) (cstr "555555")
          example_pkt).get example_pkt_defined).phy_byte i = example_pkt.info_byte i) ∧
    (∀ i, i < 40 →
      ((crc24_and_scramble_to_gen_phy_bit (fun _ => 0) (cstr "555555")
          example_pkt).get example_pkt_defined).info_bit i = example_pkt.info_bit i) ∧
    (∀ i, i < 5 →
      ((crc24_and_scramble_to_gen_phy_bit (fun _ => 0) (cstr "555555")
          example_pkt).get example_pkt_defined).info_byte i = example_pkt.info_byte i) :=
  ⟨by decide, header_copied_verbatim (fun _ => 0) (cstr "555555") example_pkt _
    (by decide) (Option.some_get example_pkt_defined).symm⟩

/-- C6. For every packet on which the call is defined, num_phy_bit =
num_info_bit + 24 and num_phy_byte = num_info_byte + 3, so num_info_bit =
8 × num_info_byte on entry gives num_phy_bit = 8 × num_phy_byte on exit. -/
theorem num_phy_bit_and_byte (table : Nat → Nat) (init : List Nat)
    (pkt pkt' : PKT_INFO)
    (h : crc24_and_scramble_to_gen_phy_bit table init pkt = some pkt') :
    pkt'.num_phy_bit = pkt.num_info_bit + 24 ∧
    pkt'.num_phy_byte = pkt.num_info_byte + 3 ∧
    (pkt.num_info_bit = 8 * pkt.num_info_byte → pkt'.num_phy_bit = 8 * pkt'.num_phy_byte) := by
  obtain ⟨crc, cs, h1, h2, h3, h4, hcrc, hcs, rfl⟩ := crc24_and_scramble_some table init pkt pkt' h
  refine ⟨rfl, rfl, ?_⟩
  intro he
  show pkt.num_info_bit + 24 = 8 * (pkt.num_info_byte + 3)
  omega

/-- Witness for C6: the example packet, 56 chars and 7 bytes on entry, 80
chars and 10 bytes on exit. -/
theorem num_phy_bit_and_byte_witness :
    ((crc24_and_scramble_to_gen_phy_bit (fun _ => 0) (cstr "555555")
        example_pkt).get example_pkt_defined).num_phy_bit = 56 + 24 ∧
    ((crc24_and_scramble_to_gen_phy_bit (fun _ => 0) (cstr "555555")
        example_pkt).get example_pkt_defined).num_phy_byte = 7 + 3 ∧
    ((crc24_and_scramble_to_gen_phy_bit (fun _ => 0) (cstr "555555")
        example_pkt).get example_pkt_defined).num_phy_bit
      = 8 * ((crc24_and_scramble_to_gen_phy_bit (fun _ => 0) (cstr "555555")
        example_pkt).get example_pkt_defined).num_phy_byte := by
  have hw := num_phy_bit_and_byte (fun _ => 0) (cstr "555555") example_pkt _
    (Option.some_get example_pkt_defined).symm
  exact ⟨hw.1, hw.2.1, hw.2.2 (by decide)⟩

set_option maxRecDepth 100000 in
/-- C5 at the failing input: with the caller's initial value 000000 and an
empty payload the three bytes appended to info_byte are AA AA AA, the CRC
from the constant 0xAAAAAA, while the table-driven CRC from the caller's value
0 is 0 and the 24 chars appended to info_bit, which do follow the caller's
value, are all 0. -/
theorem info_byte_crc_ignores_caller_init :
    (crc24_and_scramble_to_gen_phy_bit (fun _ => 0) (cstr "000000") header_only_pkt).map
        (fun p => (readAt p.info_byte 5 3, readAt p.info_bit 40 24))
      = some ([0xAA, 0xAA, 0xAA], List.replicate 24 0) ∧
    crc24_byte [] 0 0 = some 0 := by
  decide

/-- The CRC bytes of the assembler: on every defined call the three bytes
appended to info_byte are the little-endian bytes of the table-driven CRC24
of info_byte[5 .. num_info_byte) started from the constant 0xAAAAAA, whatever
crc_init_hex is. -/
theorem info_byte_crc_appended (table : Nat → Nat) (init : List Nat)
    (pkt pkt' : PKT_INFO)
    (h : crc24_and_scramble_to_gen_phy_bit table init pkt = some pkt') :
    5 ≤ pkt.num_info_byte ∧
    readAt pkt'.info_byte pkt.num_info_byte.toNat 3 =
      [crc_update 0xAAAAAA (readAt pkt.info_byte 5 (pkt.num_info_byte - 5).toNat) &&& 0xFF,
       (crc_update 0xAAAAAA (readAt pkt.info_byte 5 (pkt.num_info_byte - 5).toNat) >>> 8)
         &&& 0xFF,
       (crc_update 0xAAAAAA (readAt pkt.info_byte 5 (pkt.num_info_byte - 5).toNat) >>> 16)
         &&& 0xFF] := by
  obtain ⟨crc, cs, h1, h2, h3, h4, hcrc, hcs, rfl⟩ := crc24_and_scramble_some table init pkt pkt' h
  unfold crc24_byte to_u64 at hcs
  dsimp only at hcs
  split_ifs at hcs with hle
  rw [readAt_length] at hle
  have hnb : 5 ≤ pkt.num_info_byte := by omega
  refine ⟨hnb, ?_⟩
  have e1 : ((pkt.num_info_byte - 5) % 2 ^ 64).toNat = (pkt.num_info_byte - 5).toNat := by omega
  have e2 : ((0xAAAAAA : Int) % 2 ^ 64).toNat = 0xAAAAAA := by decide
  rw [e1, e2] at hcs
  have e3 : List.take (pkt.num_info_byte - 5).toNat (readAt pkt.info_byte 5 42)
      = readAt pkt.info_byte 5 (pkt.num_info_byte - 5).toNat := by
    apply List.ext_getElem
    · rw [List.length_take, readAt_length, readAt_length]; omega
    · intro i h1 h2
      simp [readAt]
  rw [e3] at hcs
  simp only [Option.some.injEq] at hcs
  rw [hcs]
  have := readAt_writeAt_append pkt.info_byte pkt.num_info_byte.toNat 0
    [cs &&& 0xFF, (cs >>> 8) &&& 0xFF, (cs >>> 16) &&& 0xFF]
  simpa [readAt] using this

/-- A defined call on a packet whose two lengths agree (num_info_bit =
8 × num_info_byte) holds the 5 header octets: num_info_bit ≥ 40. -/
theorem header_present_of_lengths_agree (table : Nat → Nat) (init : List Nat)
    (pkt pkt' : PKT_INFO) (he : pkt.num_info_bit = 8 * pkt.num_info_byte)
    (h : crc24_and_scramble_to_gen_phy_bit table init pkt = some pkt') :
    40 ≤ pkt.num_info_bit := by
  have := (info_byte_crc_appended table init pkt pkt' h).1
  omega

/-- When the assembler is defined: the CRC chars and bytes fit their arrays,
the packet holds its 5 header bytes, and crc_init_hex fills the 24-char
register of crc24. -/
theorem crc24_and_scramble_defined (table : Nat → Nat) (init : List Nat) (pkt : PKT_INFO)
    (r : Int) (bit_store : List Nat)
    (hinit : convert_hex_to_bit init = some (r, bit_store)) (h24 : bit_store.length = 24)
    (hbit : 0 ≤ pkt.num_info_bit ∧ pkt.num_info_bit + 24 ≤ 376)
    (hbyte : 5 ≤ pkt.num_info_byte ∧ pkt.num_info_byte + 3 ≤ 47) :
    (crc24_and_scramble_to_gen_phy_bit table init pkt).isSome = true := by
  unfold crc24_and_scramble_to_gen_phy_bit
  simp only [MAX_NUM_PHY_BYTE]
  rw [if_neg (by simp only [not_not]; norm_num; exact hbit),
    if_neg (by simp only [not_not]; norm_num; omega)]
  have hcrc : ∀ bits, crc24 bits init
      = some (crc24_result (bits.foldl crc24_step bit_store)) := by
    intro bits
    unfold crc24
    rw [hinit]
    simp only [h24, if_true]
  rw [hcrc]
  have hb : crc24_byte (readAt pkt.info_byte 5 (47 - 5)) (pkt.num_info_byte - 5) 0xAAAAAA
      = some (crc_update (to_u64 0xAAAAAA)
          ((readAt pkt.info_byte 5 (47 - 5)).take (to_u64 (pkt.num_info_byte - 5)))) := by
    unfold crc24_byte
    dsimp only
    rw [if_pos]
    rw [readAt_length]
    unfold to_u64
    omega
  simp only [hb, Option.isSome_some]

/-- The packets and initial values on which the assembler is defined: exactly
those where the CRC chars and bytes fit their arrays, the packet holds its 5
header bytes, and crc_init_hex fills the 24-char register of crc24. -/
theorem crc24_and_scramble_defined_iff (table : Nat → Nat) (init : List Nat) (pkt : PKT_INFO) :
    (crc24_and_scramble_to_gen_phy_bit table init pkt).isSome = true ↔
      (0 ≤ pkt.num_info_bit ∧ pkt.num_info_bit + 24 ≤ 376) ∧
      (5 ≤ pkt.num_info_byte ∧ pkt.num_info_byte + 3 ≤ 47) ∧
      ∃ r bit_store, convert_hex_to_bit init = some (r, bit_store) ∧ bit_store.length = 24 := by
  constructor
  · intro h
    obtain ⟨pkt', hp⟩ := Option.isSome_iff_exists.mp h
    obtain ⟨crc, cs, h1, h2, h3, h4, hcrc, hcs, _⟩ :=
      crc24_and_scramble_some table init pkt pkt' hp
    have hnb : 5 ≤ pkt.num_info_byte := by
      unfold crc24_byte to_u64 at hcs
      dsimp only at hcs
      split_ifs at hcs with hle
      rw [readAt_length] at hle
      omega
    refine ⟨⟨h1, h2⟩, ⟨hnb, h4⟩, ?_⟩
    unfold crc24 at hcrc
    split at hcrc
    · exact absurd hcrc (by simp)
    · rename_i r bit_store hconv
      split_ifs at hcrc with hlen
      exact ⟨r, bit_store, hconv, hlen⟩
  · rintro ⟨hbit, hbyte, r, bit_store, hinit, h24⟩
    exact crc24_and_scramble_defined table init pkt r bit_store hinit h24 hbit hbyte

/-! ### Hex strings -/

theorem strip_loop_append (init t : List Nat) (m : Nat) (hm : m ≤ init.length) :
    strip_loop (init ++ t) m = strip_loop init m := by
  induction m with
  | zero => rfl
  | succ n ih =>
    have hn : n < init.length := by omega
    simp only [strip_loop]
    rw [List.getD_append _ _ _ _ hn, ih (by omega)]

theorem strip_loop_eq (hex : List Nat) :
    strip_loop hex hex.length
      = if kept_length hex = 0 then none else some (kept_length hex) := by
  induction hex using List.reverseRecOn with
  | nil => rfl
  | append_singleton init c ih =>
    have hlen : (init ++ [c]).length = init.length + 1 := by simp
    have hget : (init ++ [c]).getD init.length 0 = c := by
      rw [List.getD_append_right _ _ _ _ (le_refl _)]; simp
    rw [hlen]
    simp only [strip_loop, hget]
    by_cases hc : c ≤ 32 ∨ c ≥ 127
    · rw [if_pos hc, strip_loop_append _ _ _ (le_refl _), ih]
      have : kept_length (init ++ [c]) = kept_length init := by
        simp [kept_length, List.dropWhile_cons, hc]
      rw [this]
    · rw [if_neg hc]
      have : kept_length (init ++ [c]) = init.length + 1 := by
        simp [kept_length, List.dropWhile_cons, hc]
      rw [this]
      simp

theorem kept_length_le (hex : List Nat) : kept_length hex ≤ hex.length := by
  unfold kept_length
  have := (List.dropWhile_suffix (fun c => decide (c ≤ 32 ∨ c ≥ 127)) (l := hex.reverse)).length_le
  simpa using this

theorem convert_octets_length : ∀ l : List Nat, l.length % 2 = 0 →
    (convert_octets l).length = 4 * l.length
  | [], _ => rfl
  | [_], h => by simp at h
  | c0 :: c1 :: rest, h => by
    have hr : rest.length % 2 = 0 := by
      simp only [List.length_cons] at h; omega
    simp only [convert_octets, octet_hex_to_bit, List.length_append, List.length_cons,
      List.length_nil, convert_octets_length rest hr]
    omega

/-- The behaviour of `convert_hex_to_bit` on every string that keeps at least
one character: it returns -1 and writes nothing exactly when the number of
characters kept is odd, and otherwise returns 4 times that number and writes
that many chars. -/
theorem convert_hex_to_bit_of_kept (hex : List Nat) (hk : 0 < kept_length hex) :
    (kept_length hex % 2 = 1 → convert_hex_to_bit hex = some (-1, [])) ∧
    (kept_length hex % 2 = 0 →
      ∃ bits, convert_hex_to_bit hex = some (((4 * kept_length hex : Nat) : Int), bits) ∧
        bits.length = 4 * kept_length hex) := by
  have hs := strip_loop_eq hex
  rw [if_neg (by omega)] at hs
  constructor
  · intro hodd
    unfold convert_hex_to_bit
    rw [hs]
    simp only []
    rw [if_pos (by omega)]
  · intro heven
    unfold convert_hex_to_bit
    rw [hs]
    simp only []
    rw [if_neg (by omega)]
    refine ⟨_, by rw [Nat.mul_comm], ?_⟩
    have hl : (hex.take (kept_length hex)).length = kept_length hex := by
      rw [List.length_take]; exact Nat.min_eq_left (kept_length_le hex)
    rw [convert_octets_length _ (by rw [hl]; exact heven), hl]

/-- C8 at the failing input: for the empty string, and for a string made of a
single newline, no character is left after stripping, an even number, yet the
strip loop leaves the string (it reads `hex[-1]`) and the call has no
defined result. -/
theorem convert_hex_to_bit_nothing_kept :
    kept_length (cstr "") = 0 ∧ convert_hex_to_bit (cstr "") = none ∧
    kept_length [10] = 0 ∧ convert_hex_to_bit [10] = none := by
  decide

/-- C9 at the failing input: the empty string is an even-length string of hex
digits, and its round trip has no defined result. -/
theorem hex_round_trip_empty : hex_round_trip (cstr "") = none := by
  decide

set_option maxRecDepth 1000000 in
theorem octet_round_trip : ∀ c0 < 103, ∀ c1 < 103,
    (hex_digit_val c0).isSome = true → (hex_digit_val c1).isSome = true →
    octet_hex_to_bit c0 c1 = lsb_bits 8 (16 * hex_val c0 + hex_val c1) ∧
    printf_02x (16 * hex_val c0 + hex_val c1) = [to_lower c0, to_lower c1] := by
  decide

theorem hex_digit_val_isSome_lt (c : Nat) (h : (hex_digit_val c).isSome = true) : c < 103 := by
  unfold hex_digit_val at h
  split_ifs at h <;> first | omega | simp at h

theorem hex_digit_not_stripped (c : Nat) (h : (hex_digit_val c).isSome = true) :
    ¬ (c ≤ 32 ∨ c ≥ 127) := by
  unfold hex_digit_val at h
  split_ifs at h <;> first | omega | simp at h

theorem hex_val_lt (c : Nat) : hex_val c < 16 := by
  unfold hex_val hex_digit_val
  split_ifs <;> simp <;> omega

theorem kept_length_of_hex (s : List Nat) (hne : s ≠ [])
    (hhex : ∀ c ∈ s, (hex_digit_val c).isSome = true) : kept_length s = s.length := by
  induction s using List.reverseRecOn with
  | nil => exact absurd rfl hne
  | append_singleton init c _ =>
    have hc := hex_digit_not_stripped c (hhex c (by simp))
    simp [kept_length, List.dropWhile_cons, hc]

theorem lsb_bits_getD (n d k : Nat) (hk : k < n) : (lsb_bits n d).getD k 0 = d / 2 ^ k % 2 := by
  induction n generalizing d k with
  | zero => omega
  | succ n ih =>
    cases k with
    | zero => simp [lsb_bits]
    | succ k =>
      simp only [lsb_bits, List.getD_cons_succ]
      rw [ih _ _ (by omega), Nat.div_div_eq_div_mul, pow_succ, Nat.mul_comm]

theorem lsb_bits_length (n d : Nat) : (lsb_bits n d).length = n := by
  induction n generalizing d with
  | zero => rfl
  | succ n ih => simp [lsb_bits, ih]

theorem pack_bits_lsb (x : Nat) (hx : x < 256) (rest : List Nat) :
    pack_bits (lsb_bits 8 x ++ rest) = x :: pack_bits rest := by
  simp only [lsb_bits, List.cons_append, List.nil_append, pack_bits, List.cons.injEq, and_true]
  exact ⟨by omega, rfl⟩

theorem octet_of_hex (c0 c1 : Nat) (h0 : (hex_digit_val c0).isSome = true)
    (h1 : (hex_digit_val c1).isSome = true) :
    octet_hex_to_bit c0 c1 = lsb_bits 8 (16 * hex_val c0 + hex_val c1) ∧
    printf_02x (16 * hex_val c0 + hex_val c1) = [to_lower c0, to_lower c1] :=
  octet_round_trip c0 (hex_digit_val_isSome_lt c0 h0) c1 (hex_digit_val_isSome_lt c1 h1) h0 h1

theorem printed_octets : ∀ s : List Nat, s.length % 2 = 0 →
    (∀ c ∈ s, (hex_digit_val c).isSome = true) →
    ((pack_bits (convert_octets s)).map printf_02x).flatten = s.map to_lower
  | [], _, _ => rfl
  | [_], h, _ => by simp at h
  | c0 :: c1 :: rest, h, hhex => by
    have hr : rest.length % 2 = 0 := by
      simp only [List.length_cons] at h; omega
    have h0 := hhex c0 (by simp)
    have h1 := hhex c1 (by simp)
    have ho := octet_of_hex c0 c1 h0 h1
    have hv : 16 * hex_val c0 + hex_val c1 < 256 := by
      have := hex_val_lt c0
      have := hex_val_lt c1
      omega
    have ih := printed_octets rest hr (fun c hc => hhex c (by simp [hc]))
    simp only [convert_octets]
    rw [ho.1, pack_bits_lsb _ hv, List.map_cons, List.flatten_cons, ho.2, ih]
    rfl

theorem convert_octets_getD : ∀ (s : List Nat) (j k : Nat), 2 * j + 1 < s.length → k < 8 →
    (∀ c ∈ s, (hex_digit_val c).isSome = true) →
    (convert_octets s).getD (8 * j + k) 0
      = (16 * hex_val (s.getD (2 * j) 0) + hex_val (s.getD (2 * j + 1) 0)) / 2 ^ k % 2
  | [], j, _, h, _, _ => by simp at h
  | [_], j, _, h, _, _ => by simp at h
  | c0 :: c1 :: rest, j, k, h, hk, hhex => by
    have h0 := hhex c0 (by simp)
    have h1 := hhex c1 (by simp)
    have ho := (octet_of_hex c0 c1 h0 h1).1
    simp only [convert_octets]
    rw [ho]
    cases j with
    | zero =>
      rw [List.getD_append _ _ _ _ (by rw [lsb_bits_length]; omega)]
      simpa using lsb_bits_getD 8 _ k hk
    | succ j =>
      have hj : 2 * j + 1 < rest.length := by
        simp only [List.length_cons] at h; omega
      rw [List.getD_append_right _ _ _ _ (by rw [lsb_bits_length]; omega), lsb_bits_length]
      have e1 : 8 * (j + 1) + k - 8 = 8 * j + k := by omega
      have e2 : 2 * (j + 1) = (2 * j) + 1 + 1 := by omega
      rw [e1, e2, List.getD_cons_succ, List.getD_cons_succ, List.getD_cons_succ,
        List.getD_cons_succ]
      exact convert_octets_getD rest j k hj hk (fun c hc => hhex c (by simp [hc]))

/-- The round trip of hex through bits on every non-empty even-length string
of base-16 digits of either case: `convert_hex_to_bit` returns 4 chars per
digit, char 8j+k is bit k of the j-th octet, and `disp_bit_in_hex` prints the
string back in lower case, followed by its newline. -/
theorem hex_round_trip_of_digits (s : List Nat) (hne : s ≠ []) (heven : s.length % 2 = 0)
    (hhex : ∀ c ∈ s, (hex_digit_val c).isSome = true) :
    convert_hex_to_bit s = some (((4 * s.length : Nat) : Int), convert_octets s) ∧
    (∀ j k, 2 * j + 1 < s.length → k < 8 →
      (convert_octets s).getD (8 * j + k) 0
        = (16 * hex_val (s.getD (2 * j) 0) + hex_val (s.getD (2 * j + 1) 0)) / 2 ^ k % 2) ∧
    hex_round_trip s = some (s.map to_lower ++ [10]) := by
  have hk := kept_length_of_hex s hne hhex
  have hs := strip_loop_eq s
  have hpos : 0 < s.length := List.length_pos.mpr hne
  rw [hk, if_neg (by omega)] at hs
  have hconv : convert_hex_to_bit s = some (((4 * s.length : Nat) : Int), convert_octets s) := by
    unfold convert_hex_to_bit
    rw [hs]
    simp only []
    rw [if_neg (by omega), List.take_length, Nat.mul_comm]
  refine ⟨hconv, fun j k hj hk8 => convert_octets_getD s j k hj hk8 hhex, ?_⟩
  unfold hex_round_trip
  rw [hconv]
  simp only [Option.map_some', disp_bit_in_hex]
  rw [printed_octets s heven hhex]

/-! ### PDU header encoders and opcodes -/

theorem fill_adv_pdu_header_byte_cases (t : PKT_TYPE) (tx : Nat) (htx : tx < 2) (rx : Nat)
    (hrx : rx < 2) (pl : Int) :
    fill_adv_pdu_header_byte t ((tx : Nat) : Int) ((rx : Nat) : Int) pl
      = [spec_adv_type_code t + 64 * tx + 128 * rx, (pl % 256).toNat] := by
  have hsplit : fill_adv_pdu_header_byte t ((tx : Nat) : Int) ((rx : Nat) : Int) pl
      = [(fill_adv_pdu_header_byte t ((tx : Nat) : Int) ((rx : Nat) : Int) 0).getD 0 0,
         to_char pl] := rfl
  have h0 : (fill_adv_pdu_header_byte t ((tx : Nat) : Int) ((rx : Nat) : Int) 0).getD 0 0
      = spec_adv_type_code t + 64 * tx + 128 * rx := by
    interval_cases tx <;> interval_cases rx <;> cases t <;> decide
  rw [hsplit, h0]
  rfl

theorem fill_adv_pdu_header_chars (t : PKT_TYPE) (txadd rxadd payload_len : Int) :
    fill_adv_pdu_header t txadd rxadd payload_len =
      [spec_adv_type_code t % 2, spec_adv_type_code t / 2 % 2, spec_adv_type_code t / 4 % 2,
       spec_adv_type_code t / 8 % 2, 0, 0, to_char txadd, to_char rxadd,
       bitAt payload_len 0, bitAt payload_len 1, bitAt payload_len 2,
       bitAt payload_len 3, bitAt payload_len 4, bitAt payload_len 5, 0, 0] := by
  cases t <;> rfl

theorem spec_adv_type_code_lt (t : PKT_TYPE) : spec_adv_type_code t < 16 := by
  cases t <;> decide

/-- C11. The bit-form and byte-form advertising header encoders agree: for
every packet type, txAdd, rxAdd in {0,1} and payloadLen in 0-63, the 16 chars
of fill_adv_pdu_header packed LSB-first, 8 per byte, are the two bytes of
fill_adv_pdu_header_byte, which are type | txAdd<<6 | rxAdd<<7 and
payloadLen. -/
theorem adv_header_bit_form_packs_to_byte_form (t : PKT_TYPE) (txadd rxadd payload_len : Int)
    (htx : txadd = 0 ∨ txadd = 1) (hrx : rxadd = 0 ∨ rxadd = 1)
    (hpl : 0 ≤ payload_len ∧ payload_len ≤ 63) :
    pack_bits (fill_adv_pdu_header t txadd rxadd payload_len)
      = fill_adv_pdu_header_byte t txadd rxadd payload_len ∧
    fill_adv_pdu_header_byte t txadd rxadd payload_len
      = [spec_adv_type_code t + 64 * txadd.toNat + 128 * rxadd.toNat, payload_len.toNat] := by
  have hb := fill_adv_pdu_header_byte_cases t txadd.toNat (by omega) rxadd.toNat (by omega)
    payload_len
  have e1 : ((txadd.toNat : Nat) : Int) = txadd := by omega
  have e2 : ((rxadd.toNat : Nat) : Int) = rxadd := by omega
  rw [e1, e2] at hb
  have e3 : (payload_len % 256).toNat = payload_len.toNat := by omega
  rw [e3] at hb
  refine ⟨?_, hb⟩
  rw [hb, fill_adv_pdu_header_chars]
  have hc := spec_adv_type_code_lt t
  have hp : ∀ k, bitAt payload_len k = payload_len.toNat / 2 ^ k % 2 := by
    intro k
    have := bitAt_natCast payload_len.toNat k
    rwa [Int.toNat_of_nonneg hpl.1] at this
  have htc : to_char txadd = txadd.toNat := by unfold to_char; omega
  have hrc : to_char rxadd = rxadd.toNat := by unfold to_char; omega
  have hplt : payload_len.toNat < 64 := by omega
  rw [htc, hrc]
  simp only [hp]
  generalize payload_len.toNat = p at hplt ⊢
  generalize txadd.toNat = a
  generalize rxadd.toNat = b
  generalize spec_adv_type_code t = c at hc ⊢
  simp only [pack_bits, List.cons.injEq, and_true]
  constructor <;> omega

/-- Witness for C11: a CONNECT_REQ header with txAdd 1, rxAdd 0, length 34. -/
theorem adv_header_bit_form_packs_to_byte_form_witness :
    pack_bits (fill_adv_pdu_header CONNECT_REQ 1 0 34)
      = fill_adv_pdu_header_byte CONNECT_REQ 1 0 34 ∧
    fill_adv_pdu_header_byte CONNECT_REQ 1 0 34 = [69, 34] :=
  adv_header_bit_form_packs_to_byte_form CONNECT_REQ 1 0 34 (Or.inr rfl) (Or.inl rfl)
    ⟨by decide, by decide⟩

/-- Counterexample to C12 as stated: ADV_IND and IBEACON are two different
packet types the encoder names, and so are ADV_NONCONN_IND and DISCOVERY, yet
with the same flags and length each pair gets the same 16-char header. -/
theorem adv_header_not_injective_on_types :
    is_adv_type ADV_IND = true ∧ is_adv_type IBEACON = true ∧ ADV_IND ≠ IBEACON ∧
    fill_adv_pdu_header ADV_IND 0 0 0 = fill_adv_pdu_header IBEACON 0 0 0 ∧
    is_adv_type ADV_NONCONN_IND = true ∧ is_adv_type DISCOVERY = true ∧
    ADV_NONCONN_IND ≠ DISCOVERY ∧
    fill_adv_pdu_header ADV_NONCONN_IND 1 0 43 = fill_adv_pdu_header DISCOVERY 1 0 43 := by
  decide

theorem adv_type_code_eq_cases (t1 t2 : PKT_TYPE) (h1 : is_adv_type t1 = true)
    (h2 : is_adv_type t2 = true) (h : spec_adv_type_code t1 = spec_adv_type_code t2) :
    t1 = t2 ∨ (t1 = ADV_IND ∧ t2 = IBEACON) ∨ (t1 = IBEACON ∧ t2 = ADV_IND) ∨
      (t1 = ADV_NONCONN_IND ∧ t2 = DISCOVERY) ∨ (t1 = DISCOVERY ∧ t2 = ADV_NONCONN_IND) := by
  revert h1 h2 h
  cases t1 <;> cases t2 <;> decide

theorem low6_bits_inj (p q : Int) (hp : 0 ≤ p ∧ p ≤ 63) (hq : 0 ≤ q ∧ q ≤ 63)
    (h0 : bitAt p 0 = bitAt q 0) (h1 : bitAt p 1 = bitAt q 1) (h2 : bitAt p 2 = bitAt q 2)
    (h3 : bitAt p 3 = bitAt q 3) (h4 : bitAt p 4 = bitAt q 4) (h5 : bitAt p 5 = bitAt q 5) :
    p = q := by
  have ep : ((p.toNat : Nat) : Int) = p := Int.toNat_of_nonneg hp.1
  have eq : ((q.toNat : Nat) : Int) = q := Int.toNat_of_nonneg hq.1
  rw [← ep, ← eq, bitAt_natCast, bitAt_natCast] at h0 h1 h2 h3 h4 h5
  have hlp : p.toNat < 64 := by omega
  have hlq : q.toNat < 64 := by omega
  have : p.toNat = q.toNat := by
    generalize p.toNat = a at h0 h1 h2 h3 h4 h5 hlp
    generalize q.toNat = b at h0 h1 h2 h3 h4 h5 hlq
    omega
  omega

theorem nibble_bits_inj (c d : Nat) (hc : c < 16) (hd : d < 16) (h0 : c % 2 = d % 2)
    (h1 : c / 2 % 2 = d / 2 % 2) (h2 : c / 4 % 2 = d / 4 % 2) (h3 : c / 8 % 2 = d / 8 % 2) :
    c = d := by
  omega

theorem to_char_flag_inj (a b : Int) (ha : a = 0 ∨ a = 1) (hb : b = 0 ∨ b = 1)
    (h : to_char a = to_char b) : a = b := by
  unfold to_char at h
  omega

/-- C12 (as amended). On its valid inputs the advertising header encoder is
injective up to the type code: for two tuples with named advertising types,
txAdd, rxAdd in {0,1} and payloadLen in 0-43, the headers are equal exactly
when the type codes, the flags and the lengths are equal; the types are then
equal or are one of the two pairs that share a code, ADV_IND with IBEACON
(code 0) and ADV_NONCONN_IND with DISCOVERY (code 2). -/
theorem adv_header_injective_up_to_type_code (t1 t2 : PKT_TYPE)
    (tx1 rx1 pl1 tx2 rx2 pl2 : Int)
    (ht1 : is_adv_type t1 = true) (ht2 : is_adv_type t2 = true)
    (htx1 : tx1 = 0 ∨ tx1 = 1) (hrx1 : rx1 = 0 ∨ rx1 = 1) (hpl1 : 0 ≤ pl1 ∧ pl1 ≤ 43)
    (htx2 : tx2 = 0 ∨ tx2 = 1) (hrx2 : rx2 = 0 ∨ rx2 = 1) (hpl2 : 0 ≤ pl2 ∧ pl2 ≤ 43) :
    (fill_adv_pdu_header t1 tx1 rx1 pl1 = fill_adv_pdu_header t2 tx2 rx2 pl2 ↔
      spec_adv_type_code t1 = spec_adv_type_code t2 ∧ tx1 = tx2 ∧ rx1 = rx2 ∧ pl1 = pl2) ∧
    (fill_adv_pdu_header t1 tx1 rx1 pl1 = fill_adv_pdu_header t2 tx2 rx2 pl2 →
      t1 = t2 ∨ (t1 = ADV_IND ∧ t2 = IBEACON) ∨ (t1 = IBEACON ∧ t2 = ADV_IND) ∨
      (t1 = ADV_NONCONN_IND ∧ t2 = DISCOVERY) ∨ (t1 = DISCOVERY ∧ t2 = ADV_NONCONN_IND)) := by
  have hiff : fill_adv_pdu_header t1 tx1 rx1 pl1 = fill_adv_pdu_header t2 tx2 rx2 pl2 ↔
      spec_adv_type_code t1 = spec_adv_type_code t2 ∧ tx1 = tx2 ∧ rx1 = rx2 ∧ pl1 = pl2 := by
    have e1 := fill_adv_pdu_header_chars t1 tx1 rx1 pl1
    have e2 := fill_adv_pdu_header_chars t2 tx2 rx2 pl2
    constructor
    · intro h
      rw [e1, e2] at h
      simp only [List.cons.injEq, and_true, true_and] at h
      obtain ⟨a0, a1, a2, a3, b6, b7, c0, c1, c2, c3, c4, c5⟩ := h
      exact ⟨nibble_bits_inj _ _ (spec_adv_type_code_lt t1) (spec_adv_type_code_lt t2)
          a0 a1 a2 a3,
        to_char_flag_inj _ _ htx1 htx2 b6, to_char_flag_inj _ _ hrx1 hrx2 b7,
        low6_bits_inj _ _ (by omega) (by omega) c0 c1 c2 c3 c4 c5⟩
    · rintro ⟨hc, rfl, rfl, rfl⟩
      rw [e1, e2, hc]
  exact ⟨hiff, fun h => adv_type_code_eq_cases t1 t2 ht1 ht2 (hiff.mp h).1⟩

/-- Witness for C12 (as amended): ADV_IND and IBEACON with the same flags and
length. -/
theorem adv_header_injective_up_to_type_code_witness :
    (fill_adv_pdu_header ADV_IND 1 0 20 = fill_adv_pdu_header IBEACON 1 0 20 ↔
      spec_adv_type_code ADV_IND = spec_adv_type_code IBEACON ∧
        (1 : Int) = 1 ∧ (0 : Int) = 0 ∧ (20 : Int) = 20) :=
  (adv_header_injective_up_to_type_code ADV_IND IBEACON 1 0 20 1 0 20 (by decide) (by decide)
    (Or.inr rfl) (Or.inl rfl) ⟨by decide, by decide⟩
    (Or.inr rfl) (Or.inl rfl) ⟨by decide, by decide⟩).1

/-- C13. For llid in 0-3, nesn, sn, md in {0,1} and length in 0-31,
fill_data_pdu_header writes 16 chars that are each 0 or 1, laid out as chars
0-1 = llid LSB-first, char 2 = nesn, char 3 = sn, char 4 = md, chars 5-7 = 0,
chars 8-12 = length LSB-first, chars 13-15 = 0; the fields are recovered from
the chars, so the encoder is injective on that range. -/
theorem fill_data_pdu_header_decodes (llid nesn sn md length : Int)
    (hllid : 0 ≤ llid ∧ llid ≤ 3) (hnesn : nesn = 0 ∨ nesn = 1) (hsn : sn = 0 ∨ sn = 1)
    (hmd : md = 0 ∨ md = 1) (hlen : 0 ≤ length ∧ length ≤ 31) :
    (∃ b0 b1 b2 b3 b4 l0 l1 l2 l3 l4 : Nat,
      fill_data_pdu_header llid nesn sn md length
        = [b0, b1, b2, b3, b4, 0, 0, 0, l0, l1, l2, l3, l4, 0, 0, 0] ∧
      b0 < 2 ∧ b1 < 2 ∧ b2 < 2 ∧ b3 < 2 ∧ b4 < 2 ∧
      l0 < 2 ∧ l1 < 2 ∧ l2 < 2 ∧ l3 < 2 ∧ l4 < 2 ∧
      ((b0 + 2 * b1 : Nat) : Int) = llid ∧ (b2 : Int) = nesn ∧ (b3 : Int) = sn ∧
      (b4 : Int) = md ∧ ((l0 + 2 * l1 + 4 * l2 + 8 * l3 + 16 * l4 : Nat) : Int) = length) ∧
    (∀ llid2 nesn2 sn2 md2 length2 : Int,
      0 ≤ llid2 ∧ llid2 ≤ 3 → (nesn2 = 0 ∨ nesn2 = 1) → (sn2 = 0 ∨ sn2 = 1) →
      (md2 = 0 ∨ md2 = 1) → 0 ≤ length2 ∧ length2 ≤ 31 →
      fill_data_pdu_header llid nesn sn md length
        = fill_data_pdu_header llid2 nesn2 sn2 md2 length2 →
      llid = llid2 ∧ nesn = nesn2 ∧ sn = sn2 ∧ md = md2 ∧ length = length2) := by
  have key : ∀ (a : Int), 0 ≤ a → ∀ k, bitAt a k = a.toNat / 2 ^ k % 2 := by
    intro a ha k
    have := bitAt_natCast a.toNat k
    rwa [Int.toNat_of_nonneg ha] at this
  constructor
  · refine ⟨bitAt llid 0, bitAt llid 1, to_char nesn, to_char sn, to_char md,
      bitAt length 0, bitAt length 1, bitAt length 2, bitAt length 3, bitAt length 4, rfl,
      bitAt_lt_two _ _, bitAt_lt_two _ _, ?_, ?_, ?_, bitAt_lt_two _ _, bitAt_lt_two _ _,
      bitAt_lt_two _ _, bitAt_lt_two _ _, bitAt_lt_two _ _, ?_, ?_, ?_, ?_, ?_⟩
    · unfold to_char; omega
    · unfold to_char; omega
    · unfold to_char; omega
    · rw [key llid hllid.1, key llid hllid.1]; omega
    · unfold to_char; omega
    · unfold to_char; omega
    · unfold to_char; omega
    · simp only [key length hlen.1]; omega
  · intro llid2 nesn2 sn2 md2 length2 hllid2 hnesn2 hsn2 hmd2 hlen2 h
    unfold fill_data_pdu_header at h
    simp only [List.cons.injEq, and_true, true_and] at h
    obtain ⟨a0, a1, n, s, m, c0, c1, c2, c3, c4⟩ := h
    refine ⟨?_, to_char_flag_inj _ _ hnesn hnesn2 n, to_char_flag_inj _ _ hsn hsn2 s,
      to_char_flag_inj _ _ hmd hmd2 m, ?_⟩
    · rw [key llid hllid.1, key llid2 hllid2.1] at a0 a1
      omega
    · rw [key length hlen.1, key length2 hlen2.1] at c0 c1 c2 c3 c4
      omega

/-- Witness for C13: llid 2, nesn 1, sn 0, md 1, length 27. -/
theorem fill_data_pdu_header_decodes_witness :
    ∃ b0 b1 b2 b3 b4 l0 l1 l2 l3 l4 : Nat,
      fill_data_pdu_header 2 1 0 1 27
        = [b0, b1, b2, b3, b4, 0, 0, 0, l0, l1, l2, l3, l4, 0, 0, 0] ∧
      b0 < 2 ∧ b1 < 2 ∧ b2 < 2 ∧ b3 < 2 ∧ b4 < 2 ∧
      l0 < 2 ∧ l1 < 2 ∧ l2 < 2 ∧ l3 < 2 ∧ l4 < 2 ∧
      ((b0 + 2 * b1 : Nat) : Int) = 2 ∧ (b2 : Int) = 1 ∧ (b3 : Int) = 0 ∧
      (b4 : Int) = 1 ∧ ((l0 + 2 * l1 + 4 * l2 + 8 * l3 + 16 * l4 : Nat) : Int) = 27 :=
  (fill_data_pdu_header_decodes 2 1 0 1 27 ⟨by decide, by decide⟩ (Or.inr rfl) (Or.inl rfl)
    (Or.inr rfl) ⟨by decide, by decide⟩).1

set_option maxRecDepth 100000 in
/-- Counterexample to C14 as stated: the packet types that get_opcode maps to
an opcode other than 0xFF, the sub-types LL_CONNECTION_UPDATE_REQ to
LL_REJECT_IND, are 14 and not 13; the thirteenth, LL_VERSION_IND, gets 0x0C
and the fourteenth, LL_REJECT_IND, gets 0x0D. -/
theorem get_opcode_fourteen_sub_types :
    (all_pkt_types.filter (fun t => decide (get_opcode t ≠ some [1, 1, 1, 1, 1, 1, 1, 1]))).length
      = 14 ∧
    get_opcode LL_VERSION_IND = some (lsb_bits 8 0x0C) ∧
    get_opcode LL_REJECT_IND = some (lsb_bits 8 0x0D) := by
  decide

set_option maxRecDepth 100000 in
/-- C14 (as amended). get_opcode maps the link-layer control sub-types
LL_CONNECTION_UPDATE_REQ to LL_REJECT_IND, 14 sub-types, one-to-one and in
declaration order onto the opcodes 0x00-0x0D, each written as 8 chars
LSB-first, and maps every other packet type to 0xFF (all eight chars 1). -/
theorem get_opcode_table (t : PKT_TYPE) :
    LL_CONNECTION_UPDATE_REQ.toCtorIdx = 12 ∧ LL_REJECT_IND.toCtorIdx = 25 ∧
    (12 ≤ t.toCtorIdx ∧ t.toCtorIdx ≤ 25 →
      get_opcode t = some (lsb_bits 8 (t.toCtorIdx - 12)) ∧ t.toCtorIdx - 12 ≤ 0x0D) ∧
    (t.toCtorIdx < 12 ∨ 25 < t.toCtorIdx → get_opcode t = some [1, 1, 1, 1, 1, 1, 1, 1]) ∧
    (∀ t2 : PKT_TYPE, 12 ≤ t.toCtorIdx ∧ t.toCtorIdx ≤ 25 → get_opcode t = get_opcode t2 →
      t = t2) ∧
    (all_pkt_types.filter (fun t => decide (12 ≤ t.toCtorIdx ∧ t.toCtorIdx ≤ 25))).length
      = 14 := by
  refine ⟨rfl, rfl, ?_, ?_, ?_, by decide⟩
  · cases t <;> decide
  · cases t <;> decide
  · intro t2
    cases t <;> cases t2 <;> decide

set_option maxRecDepth 100000 in
/-- Witness for C14 (as amended): LL_ENC_REQ, the fourth sub-type, gets
opcode 0x03. -/
theorem get_opcode_table_witness :
    get_opcode LL_ENC_REQ = some (lsb_bits 8 (LL_ENC_REQ.toCtorIdx - 12)) ∧
      LL_ENC_REQ.toCtorIdx - 12 ≤ 0x0D :=
  (get_opcode_table LL_ENC_REQ).2.2.1 ⟨by decide, by decide⟩

theorem bitAt_low5 (n : Int) :
    bitAt n 0 = (n % 32).toNat % 2 ∧ bitAt n 1 = (n % 32).toNat / 2 % 2 ∧
    bitAt n 2 = (n % 32).toNat / 4 % 2 ∧ bitAt n 3 = (n % 32).toNat / 8 % 2 ∧
    bitAt n 4 = (n % 32).toNat / 16 % 2 := by
  simp only [bitAt_eq]
  refine ⟨?_, ?_, ?_, ?_, ?_⟩ <;> omega

theorem bitAt_low3 (n : Int) :
    bitAt n 0 = (n % 8).toNat % 2 ∧ bitAt n 1 = (n % 8).toNat / 2 % 2 ∧
    bitAt n 2 = (n % 8).toNat / 4 % 2 := by
  simp only [bitAt_eq]
  refine ⟨?_, ?_, ?_⟩ <;> omega

theorem pack_hop_sca (a b : Nat) (ha : a < 32) (hb : b < 8) :
    a % 2 + 2 * (a / 2 % 2 + 2 * (a / 4 % 2 + 2 * (a / 8 % 2 + 2 * (a / 16 % 2 + 2 *
      (b % 2 + 2 * (b / 2 % 2 + 2 * (b / 4 % 2 + 2 * 0))))))) = a + 32 * b ∧
    a % 2 + 2 * (a / 2 % 2 + 2 * (a / 4 % 2 + 2 * (a / 8 % 2 + 2 * (a / 16 % 2 + 2 * 0)))) = a ∧
    b % 2 + 2 * (b / 2 % 2 + 2 * (b / 4 % 2 + 2 * 0)) = b := by
  refine ⟨?_, ?_, ?_⟩ <;> omega

/-- C15. For every hop and sca, the 8 chars of fill_hop_sca packed LSB-first
are (hop mod 32) + 32 × (sca mod 8): chars 0-4 are the 5-bit hop increment and
chars 5-7 the 3-bit sleep-clock accuracy; for hop in 0-31 and sca in 0-7 both
fields are recovered from the byte. -/
theorem fill_hop_sca_packs (hop sca : Int) :
    (bits_to_nat (fill_hop_sca hop sca) : Int) = hop % 32 + 32 * (sca % 8) ∧
    (bits_to_nat ((fill_hop_sca hop sca).take 5) : Int) = hop % 32 ∧
    (bits_to_nat ((fill_hop_sca hop sca).drop 5) : Int) = sca % 8 ∧
    (0 ≤ hop ∧ hop ≤ 31 → 0 ≤ sca ∧ sca ≤ 7 →
      (bits_to_nat (fill_hop_sca hop sca) % 32 : Nat) = hop ∧
      (bits_to_nat (fill_hop_sca hop sca) / 32 : Nat) = sca) := by
  obtain ⟨h0, h1, h2, h3, h4⟩ := bitAt_low5 hop
  obtain ⟨s0, s1, s2⟩ := bitAt_low3 sca
  have hhn : (hop % 32).toNat < 32 := by omega
  have hsn : (sca % 8).toNat < 8 := by omega
  have eh : ((hop % 32).toNat : Int) = hop % 32 := by omega
  have es : ((sca % 8).toNat : Int) = sca % 8 := by omega
  obtain ⟨p1, p2, p3⟩ := pack_hop_sca _ _ hhn hsn
  simp only [fill_hop_sca, bits_to_nat, List.take_succ_cons, List.take_zero, List.drop_succ_cons,
    List.drop_zero, h0, h1, h2, h3, h4, s0, s1, s2, p1, p2, p3]
  refine ⟨by omega, eh, es, ?_⟩
  intro hhop hsca
  constructor <;> omega

/-- Witness for C15: hop 17 and sca 5 give the byte 177 and are read back
from it. -/
theorem fill_hop_sca_packs_witness :
    (bits_to_nat (fill_hop_sca 17 5) % 32 : Nat) = (17 : Int) ∧
    (bits_to_nat (fill_hop_sca 17 5) / 32 : Nat) = (5 : Int) :=
  (fill_hop_sca_packs 17 5).2.2.2 ⟨by decide, by decide⟩ ⟨by decide, by decide⟩

/-! ### Length handling of the table-driven CRC, whitening keystream -/

/-- C16 at the failing input: the `int` length -1 becomes the `size_t`
2^64 - 1 in the call of crc_update, so crc24_byte is asked to read that many
bytes and has no defined result, whatever the buffer holds. -/
theorem crc24_byte_negative_length_undefined :
    to_u64 (-1) = 2 ^ 64 - 1 ∧
    crc24_byte [0x31, 0x32] (-1) 0xAAAAAA = none ∧
    crc24_byte [] (-1) 0xAAAAAA = none := by
  decide

/-- A zero length is a no-op for the table-driven CRC: no byte is read and the
initial value, masked to 24 bits, is returned. -/
theorem crc24_byte_zero_length (byte_in : List Nat) (init_hex : Int) :
    crc24_byte byte_in 0 init_hex = some (init_hex % 2 ^ 24).toNat := by
  have h0 : to_u64 0 = 0 := by decide
  unfold crc24_byte
  simp only [h0, Nat.zero_le, if_true, List.take_zero]
  unfold crc_update to_u64
  simp only [List.foldl_nil, and_ffffff]
  congr 1
  omega

/-- A negative `int` length is never a no-op: for a buffer shorter than 2^63
bytes crc24_byte asks for more bytes than the buffer holds. -/
theorem crc24_byte_negative_length (byte_in : List Nat) (num_byte init_hex : Int)
    (hneg : num_byte < 0) (hint : -2 ^ 31 ≤ num_byte) (hbuf : byte_in.length < 2 ^ 63) :
    crc24_byte byte_in num_byte init_hex = none := by
  unfold crc24_byte
  dsimp only
  rw [if_neg]
  unfold to_u64
  omega

theorem scramble_loop_getD (st x : List Nat) (i : Nat) (hi : i < x.length) :
    (scramble_loop st x).getD i 0 = ((scramble_step^[i] st).getD 6 0 + x.getD i 0) % 2 := by
  induction x generalizing st i with
  | nil => simp at hi
  | cons b rest ih =>
    cases i with
    | zero => simp [scramble_loop]
    | succ j =>
      simp only [scramble_loop, List.getD_cons_succ, Function.iterate_succ_apply]
      exact ih _ j (by simpa using hi)

theorem scramble_state_bits (ch : Int) (i : Nat) :
    ∃ s0 s1 s2 s3 s4 s5 s6 : Nat,
      scramble_state ch i = [s0, s1, s2, s3, s4, s5, s6] ∧
      s0 < 2 ∧ s1 < 2 ∧ s2 < 2 ∧ s3 < 2 ∧ s4 < 2 ∧ s5 < 2 ∧ s6 < 2 := by
  induction i with
  | zero =>
    exact ⟨1, bitAt ch 5, bitAt ch 4, bitAt ch 3, bitAt ch 2, bitAt ch 1, bitAt ch 0, rfl,
      by decide, bitAt_lt_two _ _, bitAt_lt_two _ _, bitAt_lt_two _ _, bitAt_lt_two _ _,
      bitAt_lt_two _ _, bitAt_lt_two _ _⟩
  | succ n ih =>
    obtain ⟨s0, s1, s2, s3, s4, s5, s6, hs, h0, h1, h2, h3, h4, h5, h6⟩ := ih
    refine ⟨s6, s0, s1, s2, (s3 + s6) % 2, s4, s5, ?_, h6, h0, h1, h2, by omega, h4, h5⟩
    unfold scramble_state at hs ⊢
    rw [Function.iterate_succ_apply', hs]
    rfl

theorem add_mod_two_eq_xor (a b : Nat) (ha : a < 2) (hb : b < 2) : (a + b) % 2 = a ^^^ b := by
  interval_cases a <;> interval_cases b <;> rfl

/-- C17. For every channel number 0-39 and every sequence x of chars that are
0 or 1, scramble returns a sequence of the same length whose char i is x[i]
XOR s_i[6]; the register starts as s_0 = [1, ch5, ch4, ch3, ch2, ch1, ch0] and
steps by new = [s[6], s[0], s[1], s[2], s[3] XOR s[6], s[4], s[5]]; the
keystream s_i[6] is a function of the channel number alone. -/
theorem scramble_is_keystream_xor (ch : Int) (x : List Nat)
    (hch : 0 ≤ ch ∧ ch ≤ 39) (hx : ∀ b ∈ x, b = 0 ∨ b = 1) :
    (scramble x ch).length = x.length ∧
    (∀ i, i < x.length →
      (scramble x ch).getD i 0 = x.getD i 0 ^^^ (scramble_state ch i).getD 6 0) ∧
    scramble_state ch 0 = [1, ch.toNat / 32 % 2, ch.toNat / 16 % 2, ch.toNat / 8 % 2,
      ch.toNat / 4 % 2, ch.toNat / 2 % 2, ch.toNat % 2] ∧
    (∀ i, ∃ s0 s1 s2 s3 s4 s5 s6 : Nat,
      scramble_state ch i = [s0, s1, s2, s3, s4, s5, s6] ∧
      scramble_state ch (i + 1) = [s6, s0, s1, s2, s3 ^^^ s6, s4, s5]) := by
  refine ⟨scramble_loop_length _ x, ?_, ?_, ?_⟩
  · intro i hi
    obtain ⟨s0, s1, s2, s3, s4, s5, s6, hs, _, _, _, _, _, _, h6⟩ := scramble_state_bits ch i
    have hxi : x.getD i 0 < 2 := by
      have hm : x.getD i 0 ∈ x := by
        rw [List.getD_eq_getElem _ _ hi]
        exact List.getElem_mem _
      rcases hx _ hm with h | h <;> omega
    have hk : (scramble_state ch i).getD 6 0 = s6 := by rw [hs]; rfl
    unfold scramble
    rw [scramble_loop_getD _ _ _ hi]
    change ((scramble_state ch i).getD 6 0 + x.getD i 0) % 2 = _
    rw [hk, add_mod_two_eq_xor _ _ h6 hxi, Nat.xor_comm]
  · have key : ∀ k, bitAt ch k = ch.toNat / 2 ^ k % 2 := by
      intro k
      have := bitAt_natCast ch.toNat k
      rwa [Int.toNat_of_nonneg hch.1] at this
    show scramble_init ch = _
    simp only [scramble_init, key]
    norm_num
  · intro i
    obtain ⟨s0, s1, s2, s3, s4, s5, s6, hs, _, _, _, h3, _, _, h6⟩ := scramble_state_bits ch i
    refine ⟨s0, s1, s2, s3, s4, s5, s6, hs, ?_⟩
    unfold scramble_state at hs ⊢
    rw [Function.iterate_succ_apply', hs, ← add_mod_two_eq_xor _ _ h3 h6]
    rfl

/-- Witness for C17: eight chars on channel 37. -/
theorem scramble_is_keystream_xor_witness :
    (scramble [1, 0, 1, 1, 0, 0, 0, 1] 37).length = 8 ∧
    scramble_state 37 0 = [1, (37 : Int).toNat / 32 % 2, (37 : Int).toNat / 16 % 2,
      (37 : Int).toNat / 8 % 2, (37 : Int).toNat / 4 % 2, (37 : Int).toNat / 2 % 2,
      (37 : Int).toNat % 2] := by
  have hw := scramble_is_keystream_xor 37 [1, 0, 1, 1, 0, 0, 0, 1] ⟨by decide, by decide⟩
    (by decide)
  exact ⟨hw.1, hw.2.2.1⟩

/-! ### Byte-wise whitening, frame of the assembler, Gaussian filter table -/

theorem scramble_byte_loop_length (table : Nat → Nat) (k : Nat) (x : List Nat) :
    (scramble_byte_loop table k x).length = x.length := by
  induction x generalizing k with
  | nil => rfl
  | cons b rest ih => simp [scramble_byte_loop, ih]

theorem scramble_byte_loop_getD (table : Nat → Nat) (k : Nat) (x : List Nat) (i : Nat)
    (hi : i < x.length) :
    (scramble_byte_loop table k x).getD i 0 = (x.getD i 0 ^^^ table (k + i)) % 256 := by
  induction x generalizing k i with
  | nil => simp at hi
  | cons b rest ih =>
    cases i with
    | zero => simp [scramble_byte_loop]
    | succ j =>
      simp only [scramble_byte_loop, List.getD_cons_succ]
      rw [ih (k + 1) j (by simpa using hi)]
      congr 3
      omega

theorem xor_mod_256_twice (b t : Nat) (hb : b < 256) :
    ((b ^^^ t) % 256 ^^^ t) % 256 = b := by
  have h256 : (256 : Nat) = 2 ^ 8 := by norm_num
  apply Nat.eq_of_testBit_eq
  intro i
  rw [h256, Nat.testBit_mod_two_pow, Nat.testBit_xor, Nat.testBit_mod_two_pow, Nat.testBit_xor]
  by_cases hi : i < 8
  · simp [hi]
  · have : b.testBit i = false := by
      apply Nat.testBit_lt_two_pow
      exact lt_of_lt_of_le (h256 ▸ hb) (Nat.pow_le_pow_right (by norm_num) (by omega))
    simp [hi, this]

theorem scramble_byte_loop_twice (table : Nat → Nat) (k : Nat) (x : List Nat)
    (hx : ∀ b ∈ x, b < 256) :
    scramble_byte_loop table k (scramble_byte_loop table k x) = x := by
  induction x generalizing k with
  | nil => rfl
  | cons b rest ih =>
    simp only [scramble_byte_loop]
    rw [xor_mod_256_twice b _ (hx b (List.mem_cons_self _ _)),
      ih (k + 1) (fun y hy => hx y (List.mem_cons_of_mem _ hy))]

/-- C18. The byte-wise whitener does not depend on its channel_number
argument: for every sequence of bytes and every two channel numbers
scramble_byte returns the same output, byte i being input byte i XOR entry i
of the one table scramble_table_ch37; hence applying it twice returns the
input. -/
theorem scramble_byte_ignores_channel (scramble_table_ch37 : Nat → Nat) (x : List Nat)
    (ch1 ch2 : Int) (hx : ∀ b ∈ x, b < 256) :
    scramble_byte scramble_table_ch37 x ch1 = scramble_byte scramble_table_ch37 x ch2 ∧
    (scramble_byte scramble_table_ch37 x ch1).length = x.length ∧
    (∀ i, i < x.length →
      (scramble_byte scramble_table_ch37 x ch1).getD i 0
        = (x.getD i 0 ^^^ scramble_table_ch37 i) % 256) ∧
    scramble_byte scramble_table_ch37 (scramble_byte scramble_table_ch37 x ch1) ch2 = x := by
  refine ⟨rfl, scramble_byte_loop_length _ _ _, ?_, scramble_byte_loop_twice _ _ _ hx⟩
  intro i hi
  have := scramble_byte_loop_getD scramble_table_ch37 0 x i hi
  rw [Nat.zero_add] at this
  exact this

/-- Witness for C18: three bytes, channels 37 and 5, and a table that starts
8D D2 57. -/
theorem scramble_byte_ignores_channel_witness :
    scramble_byte (fun i => [0x8D, 0xD2, 0x57].getD i 0) [0x31, 0x32, 0xFF] 37
      = scramble_byte (fun i => [0x8D, 0xD2, 0x57].getD i 0) [0x31, 0x32, 0xFF] 5 ∧
    scramble_byte (fun i => [0x8D, 0xD2, 0x57].getD i 0)
      (scramble_byte (fun i => [0x8D, 0xD2, 0x57].getD i 0) [0x31, 0x32, 0xFF] 37) 5
      = [0x31, 0x32, 0xFF] := by
  have hw := scramble_byte_ignores_channel (fun i => [0x8D, 0xD2, 0x57].getD i 0)
    [0x31, 0x32, 0xFF] 37 5 (by decide)
  exact ⟨hw.1, hw.2.2.2⟩

/-- C19. On every defined call crc24_and_scramble_to_gen_phy_bit leaves
channel_number, pkt_type, cmd_str, space, num_info_bit, num_info_byte,
info_bit[0 .. num_info_bit), info_byte[0 .. num_info_byte), num_phy_sample and
both sample buffers as they were; of info_bit and info_byte it writes only
info_bit[num_info_bit .. +24) and info_byte[num_info_byte .. +3). -/
theorem assembler_frame (table : Nat → Nat) (init : List Nat) (pkt pkt' : PKT_INFO)
    (h : crc24_and_scramble_to_gen_phy_bit table init pkt = some pkt') :
    pkt'.channel_number = pkt.channel_number ∧ pkt'.pkt_type = pkt.pkt_type ∧
    pkt'.cmd_str = pkt.cmd_str ∧ pkt'.space = pkt.space ∧
    pkt'.num_info_bit = pkt.num_info_bit ∧ pkt'.num_info_byte = pkt.num_info_byte ∧
    pkt'.num_phy_sample = pkt.num_phy_sample ∧ pkt'.phy_sample = pkt.phy_sample ∧
    pkt'.phy_sample1 = pkt.phy_sample1 ∧
    (∀ i : Nat, (i : Int) < pkt.num_info_bit → pkt'.info_bit i = pkt.info_bit i) ∧
    (∀ i : Nat, pkt.num_info_bit + 24 ≤ (i : Int) → pkt'.info_bit i = pkt.info_bit i) ∧
    (∀ i : Nat, (i : Int) < pkt.num_info_byte → pkt'.info_byte i = pkt.info_byte i) ∧
    (∀ i : Nat, pkt.num_info_byte + 3 ≤ (i : Int) → pkt'.info_byte i = pkt.info_byte i) := by
  obtain ⟨crc, cs, h1, h2, h3, h4, hcrc, hcs, rfl⟩ := crc24_and_scramble_some table init pkt pkt' h
  have hlen := crc24_length _ _ _ hcrc
  refine ⟨rfl, rfl, rfl, rfl, rfl, rfl, rfl, rfl, rfl, ?_, ?_, ?_, ?_⟩
  · intro i hi
    exact writeAt_of_lt _ _ _ _ (by omega)
  · intro i hi
    exact writeAt_of_ge _ _ _ _ (by rw [hlen]; omega)
  · intro i hi
    exact writeAt_of_lt _ _ _ _ (by omega)
  · intro i hi
    exact writeAt_of_ge _ _ _ _ (by simp only [List.length_cons, List.length_nil]; omega)

/-- Witness for C19: the example packet with the CRC started from 555555. -/
theorem assembler_frame_witness :
    ((crc24_and_scramble_to_gen_phy_bit (fun _ => 0) (cstr "555555")
        example_pkt).get example_pkt_defined).channel_number = example_pkt.channel_number ∧
    (∀ i : Nat, (i : Int) < example_pkt.num_info_bit →
      ((crc24_and_scramble_to_gen_phy_bit (fun _ => 0) (cstr "555555")
        example_pkt).get example_pkt_defined).info_bit i = example_pkt.info_bit i) := by
  have hw := assembler_frame (fun _ => 0) (cstr "555555") example_pkt _
    (Option.some_get example_pkt_defined).symm
  exact ⟨hw.1, hw.2.2.2.2.2.2.2.2.2.1⟩

/-- Counterexample to C20 as stated: the table has 16 taps, but tap 0 is
7.561773e-09 and tap 15 is 1.197935e-06, so tap i = tap 15 - i fails at
i = 0; it also fails at i = 7, the two middle taps. -/
theorem gauss_coef_not_mirror_15 :
    gauss_coef.length = 16 ∧ gauss_coef.getD 0 0 ≠ gauss_coef.getD (15 - 0) 0 ∧
    gauss_coef.getD 7 0 ≠ gauss_coef.getD (15 - 7) 0 := by
  refine ⟨rfl, ?_, ?_⟩
  · simp only [gauss_coef, List.getD_cons_zero, List.getD_cons_succ]
    norm_num
  · simp only [gauss_coef, List.getD_cons_zero, List.getD_cons_succ]
    norm_num

/-- C20 (as amended). gauss_coef has exactly 16 taps (LEN_GAUSS_FILTER ×
SAMPLE_PER_SYMBOL = 4 × 4) and is symmetric about tap 8: with every
coefficient the exact decimal literal of the source, tap i equals tap 16 - i
for every i in 1-15; tap 0 has no partner. -/
theorem gauss_coef_symmetric_about_tap_8 (i : Nat) (h1 : 1 ≤ i) (h15 : i ≤ 15) :
    gauss_coef.length = LEN_GAUSS_FILTER * SAMPLE_PER_SYMBOL ∧
    gauss_coef.length = 16 ∧
    gauss_coef.getD i 0 = gauss_coef.getD (16 - i) 0 := by
  refine ⟨rfl, rfl, ?_⟩
  interval_cases i <;> rfl

/-- Witness for C20 (as amended): taps 3 and 13 are both 2.326833e-03. -/
theorem gauss_coef_symmetric_about_tap_8_witness :
    gauss_coef.getD 3 0 = gauss_coef.getD (16 - 3) 0 :=
  (gauss_coef_symmetric_about_tap_8 3 (by decide) (by decide)).2.2

/-! ### The CRC table, the channel map on the band -/

set_option maxRecDepth 100000 in
theorem crc_table_entry_lt : ∀ i < 256, crc_table.getD i 0 < 2 ^ 24 := by
  decide

set_option maxRecDepth 100000 in
theorem crc_table_length : crc_table.length = 256 := by
  decide

theorem xor_lt_256 (i j : Nat) (hi : i < 256) (hj : j < 256) : i ^^^ j < 256 := by
  have h256 : (256 : Nat) = 2 ^ 8 := by norm_num
  rw [h256] at hi hj ⊢
  exact Nat.xor_lt_two_pow hi hj

/-- C21. crc_table is the generated table of the reflected CRC24 polynomial:
it has 256 entries, every entry is below 2^24, entry i is what 8 repetitions
of c ← (c >> 1) XOR (0xDA6000 if c is odd, else 0) make of c = i, and the
table is XOR-linear, crc_table[i XOR j] = crc_table[i] XOR crc_table[j]. -/
theorem crc_table_generated (i j : Nat) (hi : i < 256) (hj : j < 256) :
    crc_table.length = 256 ∧
    crc_table.getD i 0 < 2 ^ 24 ∧
    crc_table.getD i 0 = crc_shift^[8] i ∧
    (∀ c, crc_shift c = (c >>> 1) ^^^ (if c % 2 = 1 then 0xDA6000 else 0)) ∧
    crc_table.getD (i ^^^ j) 0 = crc_table.getD i 0 ^^^ crc_table.getD j 0 := by
  refine ⟨crc_table_length, crc_table_entry_lt i hi, crc_table_eq_iterate i hi, fun c => rfl, ?_⟩
  rw [crc_table_eq_iterate _ (xor_lt_256 i j hi hj), crc_table_eq_iterate i hi,
    crc_table_eq_iterate j hj, iterate_crc_shift_xor]

/-- Witness for C21: entries 1 and 0x80, and their XOR 0x81. -/
theorem crc_table_generated_witness :
    crc_table.getD 1 0 = crc_shift^[8] 1 ∧
    crc_table.getD (1 ^^^ 0x80) 0 = crc_table.getD 1 0 ^^^ crc_table.getD 0x80 0 := by
  have hw := crc_table_generated 1 0x80 (by decide) (by decide)
  exact ⟨hw.2.2.1, hw.2.2.2.2⟩

theorem get_freq_cases (ch : Int) (h : 0 ≤ ch ∧ ch ≤ 39) :
    (ch = 37 ∧ get_freq_by_channel_number ch = 2402000000) ∨
    (ch = 38 ∧ get_freq_by_channel_number ch = 2426000000) ∨
    (ch = 39 ∧ get_freq_by_channel_number ch = 2480000000) ∨
    (ch ≤ 10 ∧ (get_freq_by_channel_number ch : Int) = 2404000000 + 2000000 * ch) ∨
    (11 ≤ ch ∧ ch ≤ 36 ∧ (get_freq_by_channel_number ch : Int) = 2428000000 + 2000000 * (ch - 11)) := by
  unfold get_freq_by_channel_number to_u64
  split_ifs <;> omega

/-- C27. get_freq_by_channel_number is injective on the channels 0-39 and
stays in the band: two distinct channels get different frequencies, every
frequency is a multiple of 2,000,000 Hz between 2,402,000,000 and
2,480,000,000, and every such multiple is the frequency of exactly one
channel. -/
theorem get_freq_bijective_on_band (a b : Int) (m : Nat)
    (ha : 0 ≤ a ∧ a ≤ 39) (hb : 0 ≤ b ∧ b ≤ 39) :
    (get_freq_by_channel_number a = get_freq_by_channel_number b → a = b) ∧
    get_freq_by_channel_number a % 2000000 = 0 ∧
    2402000000 ≤ get_freq_by_channel_number a ∧ get_freq_by_channel_number a ≤ 2480000000 ∧
    (2402000000 ≤ m ∧ m ≤ 2480000000 → m % 2000000 = 0 →
      ∃ ch : Int, (0 ≤ ch ∧ ch ≤ 39) ∧ get_freq_by_channel_number ch = m ∧
        ∀ ch2 : Int, 0 ≤ ch2 ∧ ch2 ≤ 39 → get_freq_by_channel_number ch2 = m → ch2 = ch) := by
  have hca := get_freq_cases a ha
  have hcb := get_freq_cases b hb
  refine ⟨?_, ?_, ?_, ?_, ?_⟩
  · intro h
    rcases hca with h1 | h1 | h1 | h1 | h1 <;> rcases hcb with h2 | h2 | h2 | h2 | h2 <;> omega
  · rcases hca with h1 | h1 | h1 | h1 | h1 <;> omega
  · rcases hca with h1 | h1 | h1 | h1 | h1 <;> omega
  · rcases hca with h1 | h1 | h1 | h1 | h1 <;> omega
  · intro hm hmod
    have huniq : ∀ c1 c2 : Int, 0 ≤ c1 ∧ c1 ≤ 39 → 0 ≤ c2 ∧ c2 ≤ 39 →
        get_freq_by_channel_number c1 = m → get_freq_by_channel_number c2 = m → c2 = c1 := by
      intro c1 c2 hc1 hc2 e1 e2
      have k1 := get_freq_cases c1 hc1
      have k2 := get_freq_cases c2 hc2
      rcases k1 with h1 | h1 | h1 | h1 | h1 <;> rcases k2 with h2 | h2 | h2 | h2 | h2 <;> omega
    have hex : ∃ ch : Int, (0 ≤ ch ∧ ch ≤ 39) ∧ get_freq_by_channel_number ch = m := by
      by_cases e37 : m = 2402000000
      · exact ⟨37, ⟨by decide, by decide⟩, by rw [e37]; decide⟩
      by_cases e38 : m = 2426000000
      · exact ⟨38, ⟨by decide, by decide⟩, by rw [e38]; decide⟩
      by_cases e39 : m = 2480000000
      · exact ⟨39, ⟨by decide, by decide⟩, by rw [e39]; decide⟩
      by_cases hlow : m < 2426000000
      · refine ⟨((m - 2404000000) / 2000000 : Nat), ⟨by omega, by omega⟩, ?_⟩
        have k := get_freq_cases ((m - 2404000000) / 2000000 : Nat) ⟨by omega, by omega⟩
        rcases k with h1 | h1 | h1 | h1 | h1 <;> omega
      · refine ⟨((m - 2428000000) / 2000000 + 11 : Nat), ⟨by omega, by omega⟩, ?_⟩
        have k := get_freq_cases ((m - 2428000000) / 2000000 + 11 : Nat) ⟨by omega, by omega⟩
        rcases k with h1 | h1 | h1 | h1 | h1 <;> omega
    obtain ⟨ch, hch, hf⟩ := hex
    exact ⟨ch, hch, hf, fun ch2 hch2 hf2 => huniq ch ch2 hch hch2 hf hf2⟩

/-- Witness for C27: channels 37 and 0 differ in frequency, and 2,426,000,000
Hz is the frequency of exactly one channel. -/
theorem get_freq_bijective_on_band_witness :
    (get_freq_by_channel_number 37 = get_freq_by_channel_number 0 → (37 : Int) = 0) ∧
    ∃ ch : Int, (0 ≤ ch ∧ ch ≤ 39) ∧ get_freq_by_channel_number ch = 2426000000 ∧
      ∀ ch2 : Int, 0 ≤ ch2 ∧ ch2 ≤ 39 → get_freq_by_channel_number ch2 = 2426000000 →
        ch2 = ch := by
  have hw := get_freq_bijective_on_band 37 0 2426000000 ⟨by decide, by decide⟩
    ⟨by decide, by decide⟩
  exact ⟨hw.1, hw.2.2.2.2 ⟨by decide, by decide⟩ (by decide)⟩

/-! ### CRC24 under bit reversal, zero residue -/

theorem lsb_bits_bits_to_nat (l : List Nat) (hl : ∀ b ∈ l, b < 2) :
    lsb_bits l.length (bits_to_nat l) = l := by
  induction l with
  | nil => rfl
  | cons b rest ih =>
    have hb : b < 2 := hl b (List.mem_cons_self _ _)
    have ih' := ih (fun y hy => hl y (List.mem_cons_of_mem _ hy))
    simp only [List.length_cons, lsb_bits, bits_to_nat]
    have e1 : (b + 2 * bits_to_nat rest) % 2 = b := by omega
    have e2 : (b + 2 * bits_to_nat rest) / 2 = bits_to_nat rest := by omega
    rw [e1, e2, ih']

theorem bits_to_nat_lt (l : List Nat) (hl : ∀ b ∈ l, b < 2) : bits_to_nat l < 2 ^ l.length := by
  induction l with
  | nil => simp [bits_to_nat]
  | cons b rest ih =>
    have hb : b < 2 := hl b (List.mem_cons_self _ _)
    have ih' := ih (fun y hy => hl y (List.mem_cons_of_mem _ hy))
    simp only [List.length_cons, bits_to_nat, pow_succ]
    omega

theorem crc_reg_eq_reverse (v : Nat) : crc_reg v = (lsb_bits 24 v).reverse := by
  simp only [crc_reg, lsb_bits, tb_eq_div_mod, List.reverse_cons, List.reverse_nil,
    List.nil_append, List.cons_append, List.cons.injEq, and_true]
  refine ⟨?_, ?_, ?_, ?_, ?_, ?_, ?_, ?_, ?_, ?_, ?_, ?_, ?_, ?_, ?_, ?_, ?_, ?_, ?_, ?_, ?_,
    ?_, ?_, ?_⟩ <;> omega

theorem reg_of_bits (s : List Nat) (hlen : s.length = 24) (hs : ∀ b ∈ s, b < 2) :
    ∃ v, v < 2 ^ 24 ∧ s = crc_reg v := by
  have hr : ∀ b ∈ s.reverse, b < 2 := fun b hb => hs b (List.mem_reverse.mp hb)
  have hrl : s.reverse.length = 24 := by rw [List.length_reverse, hlen]
  refine ⟨bits_to_nat s.reverse, ?_, ?_⟩
  · have := bits_to_nat_lt s.reverse hr
    rwa [hrl] at this
  · have := lsb_bits_bits_to_nat s.reverse hr
    rw [hrl] at this
    rw [crc_reg_eq_reverse, this, List.reverse_reverse]

theorem crc24_result_reg_lsb (w : Nat) : crc24_result (crc_reg w) = lsb_bits 24 w := by
  have h : crc24_result (crc_reg w) = (crc_reg w).reverse := rfl
  rw [h, crc_reg_eq_reverse, List.reverse_reverse]

theorem foldl_shift_lt (bits : List Nat) (v : Nat) (hv : v < 2 ^ 24) (hb : ∀ b ∈ bits, b < 2) :
    bits.foldl (fun c b => crc_shift (c ^^^ b)) v < 2 ^ 24 := by
  induction bits generalizing v with
  | nil => simpa using hv
  | cons b rest ih =>
    have hb0 : b < 2 := hb b (List.mem_cons_self _ _)
    have hx : v ^^^ b < 2 ^ 24 := Nat.xor_lt_two_pow hv (lt_of_lt_of_le hb0 (by norm_num))
    simp only [List.foldl_cons]
    exact ih _ (crc_shift_lt _ hx) (fun x hx => hb x (List.mem_cons_of_mem _ hx))

theorem convert_octets_bits : ∀ l : List Nat, ∀ b ∈ convert_octets l, b < 2
  | [], b, hb => by simp [convert_octets] at hb
  | [_], b, hb => by simp [convert_octets] at hb
  | c0 :: c1 :: rest, b, hb => by
    simp only [convert_octets, List.mem_append] at hb
    rcases hb with h | h
    · simp only [octet_hex_to_bit, List.mem_cons, List.mem_singleton, List.not_mem_nil,
        or_false] at h
      rcases h with h | h | h | h | h | h | h | h <;> (rw [h]; exact bitAt_lt_two _ _)
    · exact convert_octets_bits rest b h

theorem convert_hex_to_bit_bits (hex : List Nat) (r : Int) (bs : List Nat)
    (h : convert_hex_to_bit hex = some (r, bs)) : ∀ b ∈ bs, b < 2 := by
  unfold convert_hex_to_bit at h
  split at h
  · exact absurd h (by simp)
  · split_ifs at h
    · simp only [Option.some.injEq, Prod.mk.injEq] at h
      rw [← h.2]
      simp
    · simp only [Option.some.injEq, Prod.mk.injEq] at h
      rw [← h.2]
      exact convert_octets_bits _

theorem crc24_some (bits init c : List Nat) (h : crc24 bits init = some c) :
    ∃ v, v < 2 ^ 24 ∧ (∀ x, crc24 x init = some (crc24_result (x.foldl crc24_step (crc_reg v)))) := by
  unfold crc24 at h
  split at h
  · exact absurd h (by simp)
  · rename_i r bs hconv
    split_ifs at h with hlen
    obtain ⟨v, hv, rfl⟩ := reg_of_bits bs hlen (convert_hex_to_bit_bits _ r bs hconv)
    refine ⟨v, hv, fun x => ?_⟩
    unfold crc24
    rw [hconv]
    simp only [hlen, if_true]

theorem crc_reg_residue (w : Nat) (hw : w < 2 ^ 24) :
    crc24_result ((crc24_result (crc_reg w)).foldl crc24_step (crc_reg w))
      = List.replicate 24 0 := by
  rw [crc24_result_reg_lsb, foldl_crc24_step_reg _ _ hw (lsb_bits_lt_two 24 w),
    foldl_bits_eq_iterate 24 w w hw, Nat.xor_self]
  have h0 : crc_shift^[24] 0 = 0 := by
    have := iterate_crc_shift_pow 24 0
    simpa using this
  rw [h0]
  rfl

theorem xor_low_byte (x : Nat) : x ^^^ (x % 256) = 2 ^ 8 * (x / 256) := by
  have h := split_low_byte x
  calc x ^^^ (x % 256) = ((x % 256) ^^^ (2 ^ 8 * (x / 256))) ^^^ (x % 256) := by rw [h]
    _ = 2 ^ 8 * (x / 256) := by
      rw [Nat.xor_comm (x % 256), Nat.xor_assoc, Nat.xor_self, Nat.xor_zero]

theorem crc_update_step_low_byte (c : Nat) (hc : c < 2 ^ 24) :
    crc_update_step c (c % 256) = c / 256 := by
  rw [crc_update_step_eq c _ hc (Nat.mod_lt _ (by norm_num)), xor_low_byte,
    iterate_crc_shift_pow]

theorem crc_bytes_residue (c : Nat) (hc : c < 2 ^ 24) :
    [c &&& 0xFF, (c >>> 8) &&& 0xFF, (c >>> 16) &&& 0xFF].foldl crc_update_step c = 0 := by
  have e0 : c &&& 0xFF = c % 256 := and_ff c
  have e1 : (c >>> 8) &&& 0xFF = (c / 256) % 256 := by
    rw [and_ff, Nat.shiftRight_eq_div_pow]
  have e2 : (c >>> 16) &&& 0xFF = (c / 256 / 256) % 256 := by
    rw [and_ff, Nat.shiftRight_eq_div_pow]
    congr 1
    omega
  rw [e0, e1, e2]
  simp only [List.foldl_cons, List.foldl_nil]
  rw [crc_update_step_low_byte c hc, crc_update_step_low_byte _ (by omega),
    crc_update_step_low_byte _ (by omega)]
  omega

theorem crc_reg_getD (v k : Nat) (hk : k < 24) : (crc_reg v).getD (23 - k) 0 = v / 2 ^ k % 2 := by
  interval_cases k <;> exact tb_eq_div_mod v _

set_option maxRecDepth 100000 in
theorem hex_numeral_555555 : hex_numeral6 true (rev_bytes 0xAAAAAA) = cstr "555555" := by
  decide

theorem readAt_writeAt_same (a : Nat → Nat) (off : Nat) (xs : List Nat) :
    readAt (writeAt a off xs) off xs.length = xs := by
  have := readAt_writeAt_append a off 0 xs
  simpa [readAt] using this

theorem readAt_lt_256 (a : Nat → Nat) (off n : Nat) (h : ∀ i, a i < 256) :
    ∀ d ∈ readAt a off n, d < 256 := by
  intro d hd
  simp only [readAt, List.mem_map] at hd
  obtain ⟨k, _, rfl⟩ := hd
  exact h _

/-- C23. The two CRC24 procedures agree under bit-reversal of the initial
value: for every byte sequence and every 24-bit v, crc24_byte(bytes, v) is the
number whose bit k is output char k of the crc24 loop run on the LSB-first
bit expansion of the bytes from the register s with s[23 - k] = bit k of v.
In particular the table-driven CRC from 0xAAAAAA equals the bit-serial CRC
from init_hex "555555" on every payload, so the CRC bytes and the CRC chars
that the assembler appends, when called with "555555" on a packet whose chars
are the expansion of its bytes, are the bytes and the bits of one value. -/
theorem crc24_byte_eq_crc24_bit_reversed (bytes : List Nat) (v : Nat)
    (hv : v < 2 ^ 24) (hb : ∀ d ∈ bytes, d < 256) (hlen : bytes.length < 2 ^ 31) :
    (∀ k, k < 24 → (crc_reg v).getD (23 - k) 0 = v / 2 ^ k % 2) ∧
    crc24_byte bytes (bytes.length : Int) (v : Int) = some (crc_update v bytes) ∧
    (∀ k, k < 24 →
      (crc24_result ((bytes_to_bits bytes).foldl crc24_step (crc_reg v))).getD k 0
        = crc_update v bytes / 2 ^ k % 2) ∧
    crc24_byte bytes (bytes.length : Int) 0xAAAAAA = some (crc_update 0xAAAAAA bytes) ∧
    crc24 (bytes_to_bits bytes) (cstr "555555") = some (bits24 (crc_update 0xAAAAAA bytes)) ∧
    (∀ (table : Nat → Nat) (pkt pkt' : PKT_INFO),
      (∀ i, pkt.info_byte i < 256) →
      readAt pkt.info_bit 40 (pkt.num_info_bit - 40).toNat
        = bytes_to_bits (readAt pkt.info_byte 5 (pkt.num_info_byte - 5).toNat) →
      crc24_and_scramble_to_gen_phy_bit table (cstr "555555") pkt = some pkt' →
      ∃ c, c < 2 ^ 24 ∧
        readAt pkt'.info_bit pkt.num_info_bit.toNat 24 = bits24 c ∧
        readAt pkt'.info_byte pkt.num_info_byte.toNat 3
          = [c &&& 0xFF, (c >>> 8) &&& 0xFF, (c >>> 16) &&& 0xFF]) := by
  refine ⟨fun k hk => crc_reg_getD v k hk, crc24_byte_eq bytes v hv hlen, ?_,
    crc24_byte_eq bytes 0xAAAAAA (by norm_num) hlen, ?_, ?_⟩
  · intro k hk
    rw [foldl_crc24_step_bytes bytes v hv hb, crc24_result_reg, crc_update_eq_foldl v hv,
      List.getD_eq_getElem _ _ (by simpa using hk)]
    simp [tb_eq_div_mod]
  · have := crc24_reg_bytes bytes 0xAAAAAA true (by norm_num) hb
    rwa [hex_numeral_555555] at this
  · intro table pkt pkt' hbyte hcons h
    have hbytes := info_byte_crc_appended table (cstr "555555") pkt pkt' h
    obtain ⟨crc, cs, h1, h2, h3, h4, hcrc, hcs, rfl⟩ :=
      crc24_and_scramble_some table (cstr "555555") pkt pkt' h
    have hc := crc24_reg_bytes (readAt pkt.info_byte 5 (pkt.num_info_byte - 5).toNat)
      0xAAAAAA true (by norm_num) (readAt_lt_256 _ _ _ hbyte)
    rw [hex_numeral_555555, ← hcons, hcrc] at hc
    simp only [Option.some.injEq] at hc
    refine ⟨crc_update 0xAAAAAA (readAt pkt.info_byte 5 (pkt.num_info_byte - 5).toNat),
      crc_update_lt _ _, ?_, hbytes.2⟩
    have hl : crc.length = 24 := crc24_length _ _ _ hcrc
    have := readAt_writeAt_same pkt.info_bit pkt.num_info_bit.toNat crc
    rw [hl] at this
    rw [← hc]
    exact this

set_option maxRecDepth 100000 in
/-- Witness for C23: the payload 31 32 from 0xAAAAAA. -/
theorem crc24_byte_eq_crc24_bit_reversed_witness :
    crc24_byte [0x31, 0x32] 2 0xAAAAAA = some (crc_update 0xAAAAAA [0x31, 0x32]) ∧
    crc24 (bytes_to_bits [0x31, 0x32]) (cstr "555555")
      = some (bits24 (crc_update 0xAAAAAA [0x31, 0x32])) := by
  have hw := crc24_byte_eq_crc24_bit_reversed [0x31, 0x32] 0xAAAAAA (by norm_num) (by decide)
    (by decide)
  exact ⟨hw.2.1, hw.2.2.2.2.1⟩

/-- C24. Zero residue: for every sequence x of chars that are 0 or 1 and every
initial value for which crc24 is defined, crc24 over x followed by the 24
output chars of crc24(x) gives 24 zero chars; and for every byte sequence b
and every 24-bit initial value, crc24_byte over b followed by the three
little-endian bytes of crc = crc24_byte(b) returns 0. -/
theorem crc24_zero_residue (x init c : List Nat) (b : List Nat) (v : Nat)
    (hx : ∀ d ∈ x, d = 0 ∨ d = 1) (hc : crc24 x init = some c)
    (hv : v < 2 ^ 24) (hb : ∀ d ∈ b, d < 256) (hlen : b.length + 3 < 2 ^ 31) :
    crc24 (x ++ c) init = some (List.replicate 24 0) ∧
    crc_update v (b ++ [crc_update v b &&& 0xFF, (crc_update v b >>> 8) &&& 0xFF,
      (crc_update v b >>> 16) &&& 0xFF]) = 0 ∧
    crc24_byte (b ++ [crc_update v b &&& 0xFF, (crc_update v b >>> 8) &&& 0xFF,
      (crc_update v b >>> 16) &&& 0xFF]) ((b.length + 3 : Nat) : Int) (v : Int) = some 0 := by
  have hres : crc_update v (b ++ [crc_update v b &&& 0xFF, (crc_update v b >>> 8) &&& 0xFF,
      (crc_update v b >>> 16) &&& 0xFF]) = 0 := by
    rw [crc_update_eq_foldl v hv (b ++ _), List.foldl_append, ← crc_update_eq_foldl v hv b]
    exact crc_bytes_residue _ (crc_update_lt v b)
  refine ⟨?_, hres, ?_⟩
  · have hx2 : ∀ d ∈ x, d < 2 := fun d hd => by rcases hx d hd with h | h <;> omega
    obtain ⟨v0, hv0, hall⟩ := crc24_some x init c hc
    have hcx := hall x
    rw [hc] at hcx
    simp only [Option.some.injEq] at hcx
    rw [hall (x ++ c), List.foldl_append, hcx, foldl_crc24_step_reg x v0 hv0 hx2]
    rw [crc_reg_residue _ (foldl_shift_lt x v0 hv0 hx2)]
  · have := crc24_byte_eq (b ++ [crc_update v b &&& 0xFF, (crc_update v b >>> 8) &&& 0xFF,
      (crc_update v b >>> 16) &&& 0xFF]) v hv (by simpa using hlen)
    rw [hres] at this
    simpa using this

set_option maxRecDepth 100000 in
/-- Witness for C24: the chars of 31 32 from 555555, and the bytes 31 32 from
0xAAAAAA. -/
theorem crc24_zero_residue_witness :
    crc24 (bytes_to_bits [0x31, 0x32] ++ bits24 (crc_update 0xAAAAAA [0x31, 0x32]))
      (cstr "555555") = some (List.replicate 24 0) ∧
    crc_update 0xAAAAAA ([0x31, 0x32] ++ [crc_update 0xAAAAAA [0x31, 0x32] &&& 0xFF,
      (crc_update 0xAAAAAA [0x31, 0x32] >>> 8) &&& 0xFF,
      (crc_update 0xAAAAAA [0x31, 0x32] >>> 16) &&& 0xFF]) = 0 := by
  have hw := crc24_zero_residue (bytes_to_bits [0x31, 0x32]) (cstr "555555")
    (bits24 (crc_update 0xAAAAAA [0x31, 0x32])) [0x31, 0x32] 0xAAAAAA (by decide) (by decide)
    (by norm_num) (by decide) (by decide)
  exact ⟨hw.1, hw.2.1⟩

/-! ### Bounds of the assembler, whitening period, strip loop -/

/-- C22. For every packet with 5 ≤ num_info_byte ≤ 43 and num_info_bit =
8 × num_info_byte, every index range the assembler reads or writes in
info_bit, phy_bit (376 chars) and info_byte, phy_byte (47 bytes) lies inside
the array, the lengths handed to crc24, crc24_byte, scramble and
scramble_byte are not negative, the call is defined whenever crc_init_hex
fills the register of crc24, and num_phy_byte is at most MAX_NUM_PHY_BYTE. -/
theorem assembler_accesses_in_bounds (pkt : PKT_INFO)
    (hbyte : 5 ≤ pkt.num_info_byte ∧ pkt.num_info_byte ≤ (MAX_NUM_INFO_BYTE : Int))
    (hbit : pkt.num_info_bit = 8 * pkt.num_info_byte) :
    (∀ a ∈ crc24_and_scramble_accesses pkt,
      0 ≤ a.2.1 ∧ 0 ≤ a.2.2 ∧ a.2.1 + a.2.2 ≤ (a.1 : Int)) ∧
    0 ≤ pkt.num_info_bit - 5 * 8 ∧ 0 ≤ pkt.num_info_byte - 5 ∧
    0 ≤ pkt.num_info_bit - 5 * 8 + 24 ∧ 0 ≤ pkt.num_info_byte - 5 + 3 ∧
    pkt.num_info_byte + 3 ≤ (MAX_NUM_PHY_BYTE : Int) ∧
    (∀ (table : Nat → Nat) (init : List Nat) (r : Int) (bit_store : List Nat),
      convert_hex_to_bit init = some (r, bit_store) → bit_store.length = 24 →
      ∃ pkt', crc24_and_scramble_to_gen_phy_bit table init pkt = some pkt' ∧
        pkt'.num_phy_byte ≤ (MAX_NUM_PHY_BYTE : Int)) := by
  have h43 : (MAX_NUM_INFO_BYTE : Int) = 43 := rfl
  have h47 : (MAX_NUM_PHY_BYTE : Int) = 47 := rfl
  have h376 : ((MAX_NUM_PHY_BYTE * 8 : Nat) : Int) = 376 := rfl
  rw [h43] at hbyte
  have hu : (to_u64 (pkt.num_info_byte - 5) : Int) = pkt.num_info_byte - 5 := by
    unfold to_u64
    omega
  refine ⟨?_, by omega, by omega, by omega, by omega, by omega, ?_⟩
  · intro a ha
    simp only [crc24_and_scramble_accesses, List.mem_cons, List.mem_singleton,
      List.not_mem_nil, or_false] at ha
    rcases ha with h | h | h | h | h | h | h | h | h | h | h | h | h | h | h | h <;>
      (subst h; simp only [h47, h376, hu]; omega)
  · intro table init r bit_store hinit h24
    have hd := crc24_and_scramble_defined table init pkt r bit_store hinit h24
      ⟨by omega, by omega⟩ ⟨by omega, by omega⟩
    obtain ⟨pkt', hp⟩ := Option.isSome_iff_exists.mp hd
    refine ⟨pkt', hp, ?_⟩
    obtain ⟨crc, cs, _, _, _, _, _, _, rfl⟩ := crc24_and_scramble_some table init pkt pkt' hp
    show pkt.num_info_byte + 3 ≤ _
    omega

set_option maxRecDepth 100000 in
/-- Witness for C22: the example packet, 7 bytes and 56 chars. -/
theorem assembler_accesses_in_bounds_witness :
    (∀ a ∈ crc24_and_scramble_accesses example_pkt,
      0 ≤ a.2.1 ∧ 0 ≤ a.2.2 ∧ a.2.1 + a.2.2 ≤ (a.1 : Int)) ∧
    example_pkt.num_info_byte + 3 ≤ (MAX_NUM_PHY_BYTE : Int) := by
  have hw := assembler_accesses_in_bounds example_pkt ⟨by decide, by decide⟩ (by decide)
  exact ⟨hw.1, hw.2.2.2.2.2.1⟩

theorem reg7_of_bits (s0 s1 s2 s3 s4 s5 s6 : Nat) (h0 : s0 < 2) (h1 : s1 < 2) (h2 : s2 < 2)
    (h3 : s3 < 2) (h4 : s4 < 2) (h5 : s5 < 2) (h6 : s6 < 2) :
    [s0, s1, s2, s3, s4, s5, s6]
      = reg7 (64 * s0 + 32 * s1 + 16 * s2 + 8 * s3 + 4 * s4 + 2 * s5 + s6) ∧
    64 * s0 + 32 * s1 + 16 * s2 + 8 * s3 + 4 * s4 + 2 * s5 + s6 < 128 := by
  refine ⟨?_, by omega⟩
  simp only [reg7, List.cons.injEq, and_true]
  refine ⟨?_, ?_, ?_, ?_, ?_, ?_, ?_⟩ <;> omega

set_option maxRecDepth 1000000 in
theorem scramble_step_reg7 : ∀ n < 128,
    scramble_step (reg7 n) = reg7 (step7 n) ∧ step7 n < 128 := by
  decide

set_option maxRecDepth 1000000 in
theorem step7_period : ∀ n < 128, step7^[127] n = n := by
  decide

set_option maxRecDepth 1000000 in
theorem step7_recurrence : ∀ n < 128, step7^[7] n % 2 = (step7^[4] n % 2) ^^^ (n % 2) := by
  decide

theorem iterate_scramble_step_reg7 (k n : Nat) (hn : n < 128) :
    scramble_step^[k] (reg7 n) = reg7 (step7^[k] n) ∧ step7^[k] n < 128 := by
  induction k generalizing n with
  | zero => exact ⟨rfl, hn⟩
  | succ k ih =>
    obtain ⟨e, hlt⟩ := scramble_step_reg7 n hn
    rw [Function.iterate_succ_apply, Function.iterate_succ_apply, e]
    exact ih _ hlt

theorem scramble_step_period_reg7 (n : Nat) (hn : n < 128) :
    scramble_step^[127] (reg7 n) = reg7 n := by
  rw [(iterate_scramble_step_reg7 127 n hn).1, step7_period n hn]

theorem scramble_step_recurrence_reg7 (n : Nat) (hn : n < 128) :
    (scramble_step^[7] (reg7 n)).getD 6 0
      = (scramble_step^[4] (reg7 n)).getD 6 0 ^^^ (reg7 n).getD 6 0 := by
  rw [(iterate_scramble_step_reg7 7 n hn).1, (iterate_scramble_step_reg7 4 n hn).1]
  exact step7_recurrence n hn

theorem scramble_step_period (s0 s1 s2 s3 s4 s5 s6 : Nat) (h0 : s0 < 2) (h1 : s1 < 2)
    (h2 : s2 < 2) (h3 : s3 < 2) (h4 : s4 < 2) (h5 : s5 < 2) (h6 : s6 < 2) :
    scramble_step^[127] [s0, s1, s2, s3, s4, s5, s6] = [s0, s1, s2, s3, s4, s5, s6] := by
  obtain ⟨e, hlt⟩ := reg7_of_bits s0 s1 s2 s3 s4 s5 s6 h0 h1 h2 h3 h4 h5 h6
  rw [e]
  exact scramble_step_period_reg7 _ hlt

theorem scramble_step_recurrence (s0 s1 s2 s3 s4 s5 s6 : Nat) (h0 : s0 < 2) (h1 : s1 < 2)
    (h2 : s2 < 2) (h3 : s3 < 2) (h4 : s4 < 2) (h5 : s5 < 2) (h6 : s6 < 2) :
    (scramble_step^[7] [s0, s1, s2, s3, s4, s5, s6]).getD 6 0
      = (scramble_step^[4] [s0, s1, s2, s3, s4, s5, s6]).getD 6 0
        ^^^ [s0, s1, s2, s3, s4, s5, s6].getD 6 0 := by
  obtain ⟨e, hlt⟩ := reg7_of_bits s0 s1 s2 s3 s4 s5 s6 h0 h1 h2 h3 h4 h5 h6
  rw [e]
  exact scramble_step_recurrence_reg7 _ hlt

theorem scramble_state_add (ch : Int) (i n : Nat) :
    scramble_state ch (i + n) = scramble_step^[n] (scramble_state ch i) := by
  unfold scramble_state
  rw [Nat.add_comm, Function.iterate_add_apply]

theorem scramble_state_ne_zero (ch : Int) (i : Nat) :
    scramble_state ch i ≠ [0, 0, 0, 0, 0, 0, 0] := by
  induction i with
  | zero =>
    intro h
    have h0 : (scramble_state ch 0).getD 0 0 = 1 := rfl
    rw [h] at h0
    exact absurd h0 (by decide)
  | succ n ih =>
    intro h
    apply ih
    obtain ⟨s0, s1, s2, s3, s4, s5, s6, hs, h0, h1, h2, h3, h4, h5, h6⟩ :=
      scramble_state_bits ch n
    rw [scramble_state_add ch n 1, hs] at h
    simp only [Function.iterate_one, scramble_step, List.getD_cons_zero, List.getD_cons_succ,
      List.cons.injEq, and_true] at h
    obtain ⟨e6, e0, e1, e2, e3, e4, e5⟩ := h
    rw [hs, e0, e1, e2, e4, e5, e6]
    have : s3 = 0 := by omega
    rw [this]

/-- C25. For every channel number (0-39 included) the 7-char whitening
register of scramble is never all-zero at any step, and the whitening
keystream repeats with period 127, k[i+127] = k[i] for every i, and satisfies
k[i+7] = k[i+4] XOR k[i]. -/
theorem scramble_keystream_period (ch : Int) (i : Nat) :
    scramble_state ch i ≠ [0, 0, 0, 0, 0, 0, 0] ∧
    scramble_state ch (i + 127) = scramble_state ch i ∧
    scramble_keystream ch (i + 127) = scramble_keystream ch i ∧
    scramble_keystream ch (i + 7) = scramble_keystream ch (i + 4) ^^^ scramble_keystream ch i := by
  obtain ⟨s0, s1, s2, s3, s4, s5, s6, hs, h0, h1, h2, h3, h4, h5, h6⟩ :=
    scramble_state_bits ch i
  have hp : scramble_state ch (i + 127) = scramble_state ch i := by
    rw [scramble_state_add, hs]
    exact scramble_step_period s0 s1 s2 s3 s4 s5 s6 h0 h1 h2 h3 h4 h5 h6
  refine ⟨scramble_state_ne_zero ch i, hp, ?_, ?_⟩
  · unfold scramble_keystream
    rw [hp]
  · unfold scramble_keystream
    rw [scramble_state_add ch i 7, scramble_state_add ch i 4, hs]
    exact scramble_step_recurrence s0 s1 s2 s3 s4 s5 s6 h0 h1 h2 h3 h4 h5 h6

/-- The calls of `convert_hex_to_bit` that leave the string: exactly those on
a string that keeps no character. -/
theorem convert_hex_to_bit_eq_none_iff (hex : List Nat) :
    convert_hex_to_bit hex = none ↔ kept_length hex = 0 := by
  have hs := strip_loop_eq hex
  unfold convert_hex_to_bit
  by_cases hk : kept_length hex = 0
  · rw [if_pos hk] at hs
    rw [hs]
    simp [hk]
  · rw [if_neg hk] at hs
    rw [hs]
    simp only [hk, iff_false]
    split_ifs <;> simp

/-- C26 at the failing input: on the empty string the strip loop, entered with
num_hex = 0, reads hex[-1]; on the string of a space, a tab and a newline it
strips all three characters and then reads hex[-1]; neither call returns 0
chars, both have no defined result. -/
theorem strip_loop_reads_before_the_string :
    strip_loop (cstr "") (cstr "").length = none ∧
    strip_loop [32, 9, 10] 3 = none ∧
    convert_hex_to_bit (cstr "") ≠ some (0, []) ∧
    convert_hex_to_bit [32, 9, 10] ≠ some (0, []) := by
  decide

end BTLE
